import Mathlib

/-!
# echo-service: a verification development of `main.go`

The program is a TCP line-echo server.  `handle` drives one accepted
connection (read a line, write it back, flush, look at the `quit` channel),
`main` is the acceptor loop that dispatches handlers, bounded by the
`throttle` channel.

The embedding has two layers.

* A sequential, state-passing model of `handle`: the state `World` holds the
  connection as seen through `bufio` (pending input, writer buffer), the
  `quit` and `throttle` channels, the signals the environment delivers (before
  a shutdown check, and between the receive and the re-send of a check), and
  the list of effects performed so far.
* A small-step model of the whole process (`Sys`, `step`): the acceptor with
  a program counter, the handlers counted by phase, and the environment
  (signal delivery), one `Action` per atomic step; the receive and the re-send
  of a handler's shutdown check are two steps.
-/

namespace EchoService

/-! ## Basic data -/

/-- One octet of a Go string. -/
abbrev Byte := UInt8

/-- The line terminator handed to `ReadString` (the rune `'\n'`). -/
def newline : Byte := 10

/-- An `os.Signal`, by its number. -/
abbrev Signal := Nat

/-- Number of `syscall.SIGTERM`, the only signal `main` subscribes to. -/
def SIGTERM : Signal := 15

/-- The constant `MaxConnectionNum` of `main.go`. -/
def MaxConnectionNum : Nat := 10000

/-- Size of the buffer `bufio.NewWriter` allocates (`defaultBufSize`). -/
def bufSize : Nat := 4096

/-- An `error` value: `io.EOF`, or any other error identified by a code. -/
inductive Err where
  | eof
  | other (code : Nat)
  deriving DecidableEq, Repr

/-- The log lines of `main.go`, one constructor per `Printf` call site, with the
arguments handed to it (the message argument is the string before
`strings.TrimSpace` is applied for display). -/
inductive LogEntry where
  | readFailed (e : Err)
  | readMessage (s : List Byte)
  | writeFailed (e : Err)
  | flushFailed (e : Err)
  | writeResponse (s : List Byte) (n : Nat)
  | receiveSignal (sig : Signal)
  | readyForMessage
  | closeFailed (e : Err)
  | acceptFailed (e : Err)
  | acceptConnection (remote : Nat)
  | readyForConnection
  | shutdownGracefully
  deriving DecidableEq, Repr

/-- The logger a line goes to: `errLogger` (true) or `infoLogger` (false). -/
def LogEntry.isError : LogEntry → Bool
  | .readFailed _ => true
  | .writeFailed _ => true
  | .flushFailed _ => true
  | .closeFailed _ => true
  | .acceptFailed _ => true
  | _ => false

/-- The effects a handler performs, in the order it performs them.  A call is
entered when it returns, with its results. -/
inductive Event where
  | read (s : List Byte) (err : Option Err)
  | connWrite (p : List Byte) (n : Nat) (err : Option Err)
  | writeString (s : List Byte) (n : Nat) (err : Option Err)
  | flush (err : Option Err)
  | log (l : LogEntry)
  | quitRecv (sig : Signal)
  | quitSend (sig : Signal)
  | release
  | close (err : Option Err)
  deriving DecidableEq, Repr

/-- Everything a run of `handle` can touch.

* `input`, `inErr`: the bytes the peer still sends and the error the
  connection reports once they are used up (`io.EOF` for an orderly close);
* `wbuf`, `werr`: the buffer and the sticky error of the `bufio.Writer`;
* `credit`, `outErr`: `none` when the peer accepts every byte, `some k` when
  `conn.Write` fails with `outErr` after `k` more bytes;
* `closeErr`: what `conn.Close` returns;
* `quit`: content of the one-slot channel `quit`;
* `arrivals`: signals the operating system delivers, one entry taken before
  each shutdown check;
* `refill`: the signal, if any, that the operating system delivers after a
  shutdown check has received from `quit` and before it sends back;
* `throttle`: number of elements in the channel `throttle`;
* `trace`: the effects so far. -/
structure World where
  input : List Byte
  inErr : Err
  wbuf : List Byte
  werr : Option Err
  credit : Option Nat
  outErr : Err
  closeErr : Option Err
  quit : Option Signal
  arrivals : List (Option Signal)
  refill : Option Signal
  throttle : Nat
  trace : List Event
  deriving DecidableEq, Repr

/-- Append one effect to the trace. -/
def emit (w : World) (e : Event) : World :=
  { w with trace := w.trace ++ [e] }

/-! ## The connection as seen through `bufio` -/

/-- Cut a byte string after the first occurrence of `delim`. -/
def splitAtDelim (delim : Byte) : List Byte → Option (List Byte × List Byte)
  | [] => none
  | b :: bs =>
    if b = delim then some ([b], bs)
    else
      match splitAtDelim delim bs with
      | some (line, rest) => some (b :: line, rest)
      | none => none

/-- `bufio.Reader.ReadString(delim)`: the data up to and including the first
`delim`; when the stream ends first, the data read so far and the error. -/
def readString (w : World) (delim : Byte) : World × List Byte × Option Err :=
  match splitAtDelim delim w.input with
  | some (line, rest) => ({ w with input := rest }, line, none)
  | none => ({ w with input := [] }, w.input, some w.inErr)

/-- `conn.Write(p)` on the underlying connection: returns the number of bytes
accepted and the error. -/
def connWrite (w : World) (p : List Byte) : World × Nat × Option Err :=
  match w.credit with
  | none => (emit w (.connWrite p p.length none), p.length, none)
  | some k =>
    if p.length ≤ k then
      (emit { w with credit := some (k - p.length) } (.connWrite p p.length none),
        p.length, none)
    else
      (emit { w with credit := some 0 } (.connWrite p k (some w.outErr)), k, some w.outErr)

/-- `bufio.Writer.Flush`. -/
def flush (w : World) : World × Option Err :=
  match w.werr with
  | some e => (w, some e)
  | none =>
    if w.wbuf.length = 0 then (w, none)
    else
      match connWrite w w.wbuf with
      | (w1, n, some e) => ({ w1 with wbuf := w.wbuf.drop n, werr := some e }, some e)
      | (w1, _, none) => ({ w1 with wbuf := [] }, none)

/-- The loop of `bufio.Writer.WriteString` over a connection that offers no
`WriteString` of its own: while the rest of `s` does not fit in the buffer and
no error is pending, fill the buffer and flush it.  Returns the state, the rest
of `s` and the count of bytes taken so far. -/
def writeStringLoop : Nat → World → List Byte → Nat → World × List Byte × Nat
  | 0, w, s, nn => (w, s, nn)
  | fuel + 1, w, s, nn =>
    if s.length > bufSize - w.wbuf.length ∧ w.werr = none then
      let n := min s.length (bufSize - w.wbuf.length)
      let w1 := (flush { w with wbuf := w.wbuf ++ s.take n }).1
      writeStringLoop fuel w1 (s.drop n) (nn + n)
    else (w, s, nn)

/-- `bufio.Writer.WriteString(s)`: returns the number of bytes taken and the
error. -/
def writeString (w : World) (s : List Byte) : World × Nat × Option Err :=
  match writeStringLoop (s.length + 2) w s 0 with
  | (w1, s1, nn) =>
    match w1.werr with
    | some e => (w1, nn, some e)
    | none => ({ w1 with wbuf := w1.wbuf ++ s1 }, nn + s1.length, none)

/-- `conn.Close()`. -/
def connClose (w : World) : World × Option Err :=
  (w, w.closeErr)

/-! ## Channels -/

/-- `signal.Notify` delivery: a non-blocking send on `quit`, dropped when the
slot is taken. -/
def notify (q : Option Signal) (a : Option Signal) : Option Signal :=
  match q, a with
  | none, some sig => some sig
  | q, _ => q

/-- The environment's turn before a shutdown check: the next entry of
`arrivals` is delivered. -/
def deliver (w : World) : World :=
  match w.arrivals with
  | [] => w
  | a :: rest => { w with arrivals := rest, quit := notify w.quit a }

/-- How an iteration of the loop of `handle` ends. -/
inductive Flow where
  /-- With `running` true: the loop goes on. -/
  | again
  /-- With `running` false: the loop ends. -/
  | leave
  /-- Blocked in the send `quit <- signal` (line 105), the slot of `quit` being
  taken: the handler stays there until another goroutine receives from `quit`. -/
  | parked
  deriving DecidableEq, Repr

/-- The `select` at the end of an iteration of `handle` (lines 101-108):
returns the state and how the iteration ends.  In the first case the receive
`<-quit` empties the slot, the environment has its turn (`refill`), and the
send `quit <- signal` completes only if the slot is still empty. -/
def handlerSelect (w : World) (running : Bool) : World × Flow :=
  match w.quit with
  | some sig =>
    -- case signal := <-quit
    let w := emit { w with quit := none } (.quitRecv sig)
    -- infoLogger.Printf("Receive a signal: ..."); running = false
    let w := emit w (.log (.receiveSignal sig))
    -- a signal may be delivered here
    let w := { w with quit := notify w.quit w.refill, refill := none }
    -- quit <- signal
    match w.quit with
    | none => (emit { w with quit := some sig } (.quitSend sig), .leave)
    | some _ => (w, .parked)
  | none => (emit w (.log .readyForMessage), if running then .again else .leave)

/-! ## `handle` -/

/-- The pattern `if err != nil { errLogger.Printf(...); running = false }`:
returns the state and the new value of `running`. -/
def onError (w : World) (running : Bool) (f : Err → LogEntry) : Option Err → World × Bool
  | some e => (emit w (.log (f e)), false)
  | none => (w, running)

/-- One iteration of the `for running` loop of `handle` (lines 80-108);
returns the state and how the iteration ends.  A call is entered in the trace
when it returns. -/
def handleIter (w : World) : World × Flow :=
  -- s, err := buf.ReadString('\n')
  let rd := readString w newline
  let s := rd.2.1
  let st1 := onError (emit rd.1 (.read s rd.2.2)) true .readFailed rd.2.2
  -- infoLogger.Printf("Read a message: %s.", strings.TrimSpace(s))
  let w1 := emit st1.1 (.log (.readMessage s))
  -- n, err := buf.WriteString(s)
  let wr := writeString w1 s
  let n := wr.2.1
  let st2 := onError (emit wr.1 (.writeString s n wr.2.2)) st1.2 .writeFailed wr.2.2
  -- err = buf.Flush()
  let fl := flush st2.1
  let st3 := onError (emit fl.1 (.flush fl.2)) st2.2 .flushFailed fl.2
  -- infoLogger.Printf("Write a response: %s, length: %d bytes.", strings.TrimSpace(s), n)
  let w2 := emit st3.1 (.log (.writeResponse s n))
  -- select { case signal := <-quit: ... default: ... }
  handlerSelect (deliver w2) st3.2

/-- The `for running` loop of `handle`; `none` when the handler is parked in
its re-send, or when the fuel runs out. -/
def handleLoop : Nat → World → Option World
  | 0, _ => none
  | fuel + 1, w =>
    match handleIter w with
    | (w1, .again) => handleLoop fuel w1
    | (w1, .leave) => some w1
    | (_, .parked) => none

/-- The receive `<-throttle` (line 111); `none` when the channel is empty and
the receive blocks. -/
def releaseToken (w : World) : Option World :=
  if w.throttle = 0 then none
  else some (emit { w with throttle := w.throttle - 1 } .release)

/-- The deferred function of `handle` (lines 70-74), run when `handle` returns. -/
def deferredClose (w : World) : World :=
  match connClose w with
  | (w, cerr) =>
    let w := emit w (.close cerr)
    match cerr with
    | some e => emit w (.log (.closeFailed e))
    | none => w

/-- The function `handle`: the loop, the receive from `throttle`, and on
return the deferred close.  `none` when the run does not return: the handler
is parked in its re-send on `quit` (no other goroutine is there in this model
to empty the slot), or its receive from `throttle` blocks. -/
def handle (w : World) : Option World :=
  match handleLoop (w.input.length + 1) w with
  | none => none
  | some w1 =>
    match releaseToken w1 with
    | none => none
    | some w2 => some (deferredClose w2)

/-- A fresh connection whose peer sends `input` and then ends the stream with
`inErr`, with one token held for it and no signal pending or on its way. -/
def freshWorld (input : List Byte) (inErr : Err) : World :=
  { input := input, inErr := inErr, wbuf := [], werr := none, credit := none,
    outErr := .other 0, closeErr := none, quit := none, arrivals := [],
    refill := none, throttle := 1, trace := [] }

/-! ## The whole process: `main` and its handlers, one atomic step at a time -/

/-- Where the goroutine running `main` stands. -/
inductive Pc where
  /-- In `ln.Accept()` (line 42), `running` being true. -/
  | accepting
  /-- After a successful accept and `wg.Add(1)`, at `throttle <- struct{}{}` (line 48). -/
  | acquiring
  /-- At the `select` on `quit` (line 56). -/
  | checking
  /-- Out of the loop, in `wg.Wait()` (line 65). -/
  | waiting
  /-- After `main` has returned. -/
  | finished
  deriving DecidableEq, Repr

/-- The shared state of the process.

* `throttle`: number of elements in the channel `throttle` (capacity
  `MaxConnectionNum`), the outstanding admission tokens;
* `quit`: content of the one-slot channel `quit`;
* `wg`: counter of the `sync.WaitGroup`;
* `looping`: handlers inside their `for running` loop;
* `resending`: handlers that have received a signal from `quit` in their
  shutdown check and stand at `quit <- signal`, each with the signal it holds;
* `leaving`: handlers whose loop has ended, at `<-throttle`;
* `closing`: handlers past `<-throttle`, before the deferred close and `wg.Done()`;
* `log`: what `main` has logged. -/
structure Sys where
  pc : Pc
  throttle : Nat
  quit : Option Signal
  wg : Nat
  looping : Nat
  resending : List Signal
  leaving : Nat
  closing : Nat
  log : List LogEntry
  deriving DecidableEq, Repr

/-- The atomic steps of the process. -/
inductive Action where
  /-- `ln.Accept()` returns a connection. -/
  | acceptOk (remote : Nat)
  /-- `ln.Accept()` returns an error. -/
  | acceptErr (e : Err)
  /-- The send `throttle <- struct{}{}` completes and the handler is started. -/
  | acquire
  /-- The `select` of `main` on `quit`. -/
  | check
  /-- The call `wg.Wait()` returns and `main` ends. -/
  | wait
  /-- The operating system delivers a signal to `quit`. -/
  | sigterm (sig : Signal)
  /-- The `select` of one handler on `quit`: the receive, or the default case. -/
  | handlerCheck
  /-- The send `quit <- signal` of the handler at position `i` of `resending`
  completes. -/
  | handlerResend (i : Nat)
  /-- The loop of one handler ends on a read, write or flush error. -/
  | handlerLeave
  /-- One handler completes `<-throttle`. -/
  | handlerRelease
  /-- One handler closes its connection and calls `wg.Done()`. -/
  | handlerDone
  deriving DecidableEq, Repr

/-- State of the process once `net.Listen` has succeeded and `throttle` and
`wg` are created (line 40). -/
def Sys.init : Sys :=
  { pc := .accepting, throttle := 0, quit := none, wg := 0, looping := 0,
    resending := [], leaving := 0, closing := 0, log := [] }

/-- The `select` of `main` (lines 56-62): on a signal, log it and set
`running = false`, so that the loop ends and `main` reaches `wg.Wait()`;
otherwise log and go back to `ln.Accept()`. -/
def mainSelect (s : Sys) : Sys :=
  match s.quit with
  | some sig =>
    { s with quit := none, pc := .waiting, log := s.log ++ [.receiveSignal sig] }
  | none => { s with pc := .accepting, log := s.log ++ [.readyForConnection] }

/-- The `select` of a handler (lines 101-104) on the shared state: on a signal
the handler receives it, which empties `quit`, and stands at its re-send;
otherwise it takes the default case and stays in its loop. -/
def handlerCheckSys (s : Sys) : Sys :=
  match s.quit with
  | some sig =>
    { s with quit := none, looping := s.looping - 1, resending := s.resending ++ [sig] }
  | none => s

/-- The send `quit <- signal` (line 105) of the handler at position `i` of
`resending`: it completes when `quit` is empty, and the handler leaves its
loop; `none` when there is no such handler or the slot is taken. -/
def handlerResendSys (s : Sys) (i : Nat) : Option Sys :=
  match s.resending[i]?, s.quit with
  | some sig, none =>
    some { s with quit := some sig, resending := s.resending.eraseIdx i,
                  leaving := s.leaving + 1 }
  | _, _ => none

/-- One atomic step; `none` when the step is not enabled (the goroutine is
elsewhere, or the channel operation blocks). -/
def step (s : Sys) : Action → Option Sys
  | .acceptOk remote =>
    if s.pc = .accepting then
      some { s with pc := .acquiring, wg := s.wg + 1,
                    log := s.log ++ [.acceptConnection remote] }
    else none
  | .acceptErr e =>
    if s.pc = .accepting then
      some { s with pc := .checking, log := s.log ++ [.acceptFailed e] }
    else none
  | .acquire =>
    if s.pc = .acquiring ∧ s.throttle < MaxConnectionNum then
      some { s with pc := .checking, throttle := s.throttle + 1, looping := s.looping + 1 }
    else none
  | .check => if s.pc = .checking then some (mainSelect s) else none
  | .wait =>
    if s.pc = .waiting ∧ s.wg = 0 then
      some { s with pc := .finished, log := s.log ++ [.shutdownGracefully] }
    else none
  | .sigterm sig => some { s with quit := notify s.quit (some sig) }
  | .handlerCheck => if 0 < s.looping then some (handlerCheckSys s) else none
  | .handlerResend i => handlerResendSys s i
  | .handlerLeave =>
    if 0 < s.looping then
      some { s with looping := s.looping - 1, leaving := s.leaving + 1 }
    else none
  | .handlerRelease =>
    if 0 < s.leaving ∧ 0 < s.throttle then
      some { s with leaving := s.leaving - 1, closing := s.closing + 1,
                    throttle := s.throttle - 1 }
    else none
  | .handlerDone =>
    if 0 < s.closing ∧ 0 < s.wg then
      some { s with closing := s.closing - 1, wg := s.wg - 1 }
    else none

/-- A run: the steps of a list of actions, in order. -/
def run (s : Sys) : List Action → Option Sys
  | [] => some s
  | a :: as =>
    match step s a with
    | some s1 => run s1 as
    | none => none

/-- The function `main` from line 40 on, under a schedule: the state of the
process after the steps of the schedule, `none` when one of them is not
enabled at its turn. -/
def main (schedule : List Action) : Option Sys :=
  run Sys.init schedule

/-- The actions that belong to the accept loop of `main`. -/
def Action.inAcceptLoop : Action → Bool
  | .acceptOk _ => true
  | .acceptErr _ => true
  | .acquire => true
  | .check => true
  | _ => false

/-! ## Reading a trace -/

/-- The bytes the peer has accepted, in order: the accepted prefix of every
`conn.Write`. -/
def sentBytes : List Event → List Byte
  | [] => []
  | .connWrite p n _ :: es => p.take n ++ sentBytes es
  | _ :: es => sentBytes es

/-- Cut a trace at its reads: the bytes sent before the first read, and for
each read the string it returned with the bytes sent until the next read. -/
def exchangesFrom : List Event → List Byte × List (List Byte × List Byte)
  | [] => ([], [])
  | .read s _ :: es => ([], (s, (exchangesFrom es).1) :: (exchangesFrom es).2)
  | .connWrite p n _ :: es => (p.take n ++ (exchangesFrom es).1, (exchangesFrom es).2)
  | _ :: es => exchangesFrom es

/-- The exchanges of a trace: each string read, with the response sent for it. -/
def exchanges (tr : List Event) : List (List Byte × List Byte) :=
  (exchangesFrom tr).2

/-- A read of the connection by the handler. -/
def Event.isRead : Event → Bool
  | .read _ _ => true
  | _ => false

/-- A read, write or flush of the connection by the handler. -/
def Event.isConnOp : Event → Bool
  | .read _ _ => true
  | .writeString _ _ _ => true
  | .flush _ => true
  | .connWrite _ _ _ => true
  | _ => false

/-- A log line. -/
def Event.isLog : Event → Bool
  | .log _ => true
  | _ => false

/-- A close of the connection. -/
def Event.isClose : Event → Bool
  | .close _ => true
  | _ => false

/-! ## Definitions used in the statements and proofs -/

/-- What holds in every reachable state of the process: the tokens in
`throttle` are those of the handlers that have not yet released, they never
exceed the capacity, and the wait group counts every handler alive. -/
structure Sys.Inv (s : Sys) : Prop where
  bound : s.throttle ≤ MaxConnectionNum
  tokens : s.throttle = s.looping + s.resending.length + s.leaving
  group : s.wg = s.looping + s.resending.length + s.leaving + s.closing +
    (if s.pc = .acquiring then 1 else 0)

/-- Once out of its loop, `main` stays out of it. -/
def Sys.pastLoop (s : Sys) : Prop :=
  (s.pc = .waiting ∨ s.pc = .finished) ∧ (s.pc = .finished → s.wg = 0)

/-- A call of `conn.Write`: the bytes offered, the count accepted, the error. -/
abbrev Send := List Byte × Nat × Option Err

/-- The trace entry of a call of `conn.Write`. -/
def Send.event (x : Send) : Event := .connWrite x.1 x.2.1 x.2.2

/-- The state `w1` comes from `w` by the `conn.Write` calls `sends` and by
changes to the writer alone. -/
structure Wrote (w w1 : World) (sends : List Send) : Prop where
  trace : w1.trace = w.trace ++ sends.map Send.event
  input : w1.input = w.input
  inErr : w1.inErr = w.inErr
  outErr : w1.outErr = w.outErr
  closeErr : w1.closeErr = w.closeErr
  quit : w1.quit = w.quit
  arrivals : w1.arrivals = w.arrivals
  throttle : w1.throttle = w.throttle
  refill : w1.refill = w.refill

/-- What one iteration of `handle` did: the string and error of the read, the
`conn.Write` calls made inside `WriteString`, the count and error it
returned, the `conn.Write` calls made inside `Flush`, the error it returned,
what the shutdown check found on `quit`, and what was delivered to `quit`
between its receive and its re-send. -/
structure Iter where
  s : List Byte
  rerr : Option Err
  sends1 : List Send
  n : Nat
  werr : Option Err
  sends2 : List Send
  ferr : Option Err
  sig : Option Signal
  refill : Option Signal

/-- The log line that follows a failed call. -/
def errLog (f : Err → LogEntry) : Option Err → List Event
  | some e => [.log (f e)]
  | none => []

/-- The effects of the shutdown check of a handler that finds `q` on `quit`,
`r` being delivered between its receive and its re-send. -/
def selectEvents : Option Signal → Option Signal → List Event
  | some sig, none => [.quitRecv sig, .log (.receiveSignal sig), .quitSend sig]
  | some sig, some _ => [.quitRecv sig, .log (.receiveSignal sig)]
  | none, _ => [.log .readyForMessage]

/-- How the shutdown check of a handler ends. -/
def selectFlow (running : Bool) : Option Signal → Option Signal → Flow
  | some _, none => .leave
  | some _, some _ => .parked
  | none, _ => if running then .again else .leave

/-- The content of `quit` after the shutdown check of a handler. -/
def quitAfter : Option Signal → Option Signal → Option Signal
  | some sig, none => some sig
  | some _, some r => some r
  | none, _ => none

/-- The effects of one iteration, in order. -/
def Iter.events (it : Iter) : List Event :=
  .read it.s it.rerr :: errLog .readFailed it.rerr ++
  .log (.readMessage it.s) :: it.sends1.map Send.event ++
  .writeString it.s it.n it.werr :: errLog .writeFailed it.werr ++
  it.sends2.map Send.event ++
  .flush it.ferr :: errLog .flushFailed it.ferr ++
  .log (.writeResponse it.s it.n) :: selectEvents it.sig it.refill

/-- The value of `running` when the iteration reaches its shutdown check. -/
def Iter.running (it : Iter) : Bool :=
  it.rerr.isNone && it.werr.isNone && it.ferr.isNone

/-- How the iteration ends. -/
def Iter.flow (it : Iter) : Flow :=
  selectFlow it.running it.sig it.refill

/-- The state in which `handle` calls `WriteString`. -/
def beforeWrite (w : World) : World :=
  emit (onError (emit (readString w newline).1
      (.read (readString w newline).2.1 (readString w newline).2.2)) true .readFailed
      (readString w newline).2.2).1 (.log (.readMessage (readString w newline).2.1))

/-- The state in which `handle` calls `Flush`. -/
def beforeFlush (w : World) : World :=
  (onError (emit (writeString (beforeWrite w) (readString w newline).2.1).1
      (.writeString (readString w newline).2.1
        (writeString (beforeWrite w) (readString w newline).2.1).2.1
        (writeString (beforeWrite w) (readString w newline).2.1).2.2))
    (true && (readString w newline).2.2.isNone) .writeFailed
    (writeString (beforeWrite w) (readString w newline).2.1).2.2).1

/-- The state in which `handle` reaches its shutdown check. -/
def beforeSelect (w : World) : World :=
  emit (onError (emit (flush (beforeFlush w)).1 (.flush (flush (beforeFlush w)).2))
      ((readString w newline).2.2.isNone &&
        (writeString (beforeWrite w) (readString w newline).2.1).2.2.isNone)
      .flushFailed (flush (beforeFlush w)).2).1
    (.log (.writeResponse (readString w newline).2.1
      (writeString (beforeWrite w) (readString w newline).2.1).2.1))

/-- The record of the iteration that starts in `w`, given the `conn.Write`
calls made inside `WriteString` and inside `Flush`. -/
def iterOf (w : World) (sa sb : List Send) : Iter :=
  { s := (readString w newline).2.1, rerr := (readString w newline).2.2,
    sends1 := sa, n := (writeString (beforeWrite w) (readString w newline).2.1).2.1,
    werr := (writeString (beforeWrite w) (readString w newline).2.1).2.2,
    sends2 := sb, ferr := (flush (beforeFlush w)).2,
    sig := (deliver w).quit, refill := w.refill }

/-- An effect of the loop of `handle`: anything but the release of the token
and the close of the connection. -/
def Event.inLoop : Event → Bool
  | .release => false
  | .close _ => false
  | _ => true

/-- In a sequence of effects, a close of the connection comes first and a
release of the token follows it. -/
def closePrecedesRelease : List Event → Bool
  | [] => false
  | .close _ :: es => es.contains .release
  | .release :: _ => false
  | _ :: es => closePrecedesRelease es

/-- In a sequence of effects, a release of the token comes first and a close
of the connection follows it. -/
def releasePrecedesClose : List Event → Bool
  | [] => false
  | .release :: es => es.any Event.isClose
  | .close _ :: _ => false
  | _ :: es => releasePrecedesClose es

/-- A connection on which the second byte cannot be written and whose close
fails; the peer sends one line and then the read fails. -/
def brokenWorld : World :=
  { freshWorld [104, 105, 10] (.other 3) with
    credit := some 1, outErr := .other 5, closeErr := some (.other 9) }

/-- No write or flush can fail and no shutdown signal is pending or on its
way: the writer is fresh, the peer accepts every byte, `quit` is empty and
stays so. -/
structure Quiet (w : World) : Prop where
  wbuf : w.wbuf = []
  werr : w.werr = none
  credit : w.credit = none
  quit : w.quit = none
  arrivals : ∀ a ∈ w.arrivals, a = none

/-- A message: bytes without a newline, followed by one newline. -/
def IsLine (m : List Byte) : Prop :=
  ∃ body, m = body ++ [newline] ∧ newline ∉ body

/-! ## The admission gate -/

theorem Sys.inv_init : Sys.init.Inv := by
  constructor <;> simp [Sys.init]

theorem handlerResendSys_some {s s1 : Sys} {i : Nat} (h : handlerResendSys s i = some s1) :
    ∃ sig, i < s.resending.length ∧ s.resending[i]? = some sig ∧ s.quit = none ∧
      s1 = { s with quit := some sig, resending := s.resending.eraseIdx i,
                    leaving := s.leaving + 1 } := by
  unfold handlerResendSys at h
  cases hi : s.resending[i]? with
  | none => simp [hi] at h
  | some sig =>
    cases hq : s.quit with
    | some q => simp [hi, hq] at h
    | none =>
      simp only [hi, hq, Option.some.injEq] at h
      obtain ⟨hlt, _⟩ := List.getElem?_eq_some.mp hi
      exact ⟨sig, hlt, rfl, rfl, h.symm⟩

theorem Sys.inv_step {s s1 : Sys} {a : Action} (hs : s.Inv) (h : step s a = some s1) :
    s1.Inv := by
  obtain ⟨hb, ht, hg⟩ := hs
  cases a <;> simp only [step] at h
  case handlerResend i =>
    obtain ⟨sig, hlt, _, _, rfl⟩ := handlerResendSys_some h
    have hlen := List.length_eraseIdx_of_lt hlt
    constructor
    · exact hb
    · simp only [hlen]; omega
    · simp only [hlen]; omega
  case acceptOk r =>
    split at h <;> simp at h
    rename_i hpc
    subst h
    constructor <;> simp_all
  case acceptErr e =>
    split at h <;> simp at h
    rename_i hpc
    subst h
    constructor <;> simp_all
  case acquire =>
    split at h <;> simp at h
    rename_i hpc
    subst h
    constructor <;> simp_all <;> omega
  case check =>
    split at h <;> simp at h
    rename_i hpc
    subst h
    unfold mainSelect
    split <;> constructor <;> simp_all
  case wait =>
    split at h <;> simp at h
    rename_i hpc
    subst h
    constructor <;> simp_all
  case sigterm sig =>
    simp at h
    subst h
    constructor <;> simp_all
  case handlerCheck =>
    split at h <;> simp at h
    rename_i hpc
    subst h
    unfold handlerCheckSys
    split <;> constructor <;> simp_all <;> omega
  case handlerLeave =>
    split at h <;> simp at h
    rename_i hpc
    subst h
    constructor <;> simp_all <;> omega
  case handlerRelease =>
    split at h <;> simp at h
    rename_i hpc
    subst h
    constructor <;> simp_all <;> omega
  case handlerDone =>
    split at h <;> simp at h
    rename_i hpc
    subst h
    constructor <;> simp_all
    omega

theorem Sys.inv_run {acts : List Action} : ∀ {s s1 : Sys}, s.Inv → run s acts = some s1 → s1.Inv := by
  induction acts with
  | nil => intro s s1 hs h; simp [run] at h; subst h; exact hs
  | cons a as ih =>
    intro s s1 hs h
    simp only [run] at h
    split at h
    · rename_i s2 hstep
      exact ih (Sys.inv_step hs hstep) h
    · simp at h

theorem step_throttle_mono {s s1 : Sys} {a : Action} (h : step s a = some s1)
    (ha : a ≠ .handlerRelease) : s.throttle ≤ s1.throttle := by
  cases a <;> simp only [step] at h
  case handlerRelease => exact absurd rfl ha
  case handlerResend i =>
    obtain ⟨sig, _, _, _, rfl⟩ := handlerResendSys_some h
    exact le_refl _
  case check =>
    split at h <;> simp at h
    subst h
    unfold mainSelect
    split <;> simp
  case handlerCheck =>
    split at h <;> simp at h
    subst h
    unfold handlerCheckSys
    split <;> simp
  case sigterm sig =>
    simp at h
    subst h
    simp
  all_goals
    split at h <;> simp at h
    subst h
    simp

theorem run_throttle_mono {acts : List Action} :
    ∀ {s s1 : Sys}, run s acts = some s1 → Action.handlerRelease ∉ acts →
      s.throttle ≤ s1.throttle := by
  induction acts with
  | nil => intro s s1 h _; simp [run] at h; subst h; exact le_refl _
  | cons a as ih =>
    intro s s1 h hn
    simp only [run] at h
    split at h
    · rename_i s2 hstep
      have h1 := step_throttle_mono hstep (fun e => hn (by simp [e]))
      have h2 := ih h (fun e => hn (by simp [e]))
      exact le_trans h1 h2
    · simp at h

theorem run_append {as bs : List Action} :
    ∀ {s : Sys}, run s (as ++ bs) = (run s as).bind (fun s1 => run s1 bs) := by
  induction as with
  | nil => intro s; simp [run]
  | cons a as ih =>
    intro s
    simp only [List.cons_append, run]
    cases step s a with
    | none => simp
    | some s1 => simp [ih]

/-- C2. In every state the process can reach, the number of admission tokens
outstanding (the elements of `throttle`, one per handler that has not yet
released) is at most `MaxConnectionNum`; with `MaxConnectionNum` tokens
outstanding the acquire step is not enabled, and in any continuation in which
the acquire completes, a handler has released before. -/
theorem throttle_bounded (acts : List Action) (s : Sys) (h : main acts = some s) :
    s.throttle ≤ MaxConnectionNum ∧ MaxConnectionNum = 10000 ∧
    s.throttle = s.looping + s.resending.length + s.leaving ∧
    (s.throttle = MaxConnectionNum → step s .acquire = none) ∧
    (∀ (more : List Action) (s1 : Sys), s.throttle = MaxConnectionNum →
        run s (more ++ [.acquire]) = some s1 → Action.handlerRelease ∈ more) := by
  have hinv := Sys.inv_run Sys.inv_init h
  refine ⟨hinv.bound, rfl, hinv.tokens, ?_, ?_⟩
  · intro hfull
    simp [step, hfull]
  · intro more s1 hfull hrun
    by_contra hnot
    rw [run_append] at hrun
    cases hmore : run s more with
    | none => simp [hmore] at hrun
    | some t =>
      simp only [hmore, Option.some_bind, run] at hrun
      have hmono := run_throttle_mono hmore hnot
      have hstep : step t .acquire = none := by
        simp only [step]
        rw [if_neg]
        intro hc
        omega
      simp [hstep] at hrun

theorem throttle_bounded_witness :
    (1 : Nat) ≤ MaxConnectionNum ∧ MaxConnectionNum = 10000 ∧
    (1 : Nat) = 1 + ([] : List Signal).length + 0 ∧
    ((1 : Nat) = MaxConnectionNum →
      step { pc := .checking, throttle := 1, quit := none, wg := 1, looping := 1,
             resending := [], leaving := 0, closing := 0,
             log := [.acceptConnection 7] } .acquire = none) ∧
    (∀ (more : List Action) (s1 : Sys), (1 : Nat) = MaxConnectionNum →
        run { pc := .checking, throttle := 1, quit := none, wg := 1, looping := 1,
              resending := [], leaving := 0, closing := 0, log := [.acceptConnection 7] }
          (more ++ [.acquire]) = some s1 → Action.handlerRelease ∈ more) :=
  throttle_bounded [.acceptOk 7, .acquire]
    { pc := .checking, throttle := 1, quit := none, wg := 1, looping := 1,
      resending := [], leaving := 0, closing := 0, log := [.acceptConnection 7] } (by decide)

/-- The actions that admit `n` connections one after the other. -/
theorem admit_reaches (n : Nat) : ∀ s : Sys, s.pc = .accepting → s.quit = none →
    s.throttle + n ≤ MaxConnectionNum →
    ∃ acts s1, run s acts = some s1 ∧ s1.pc = .accepting ∧ s1.quit = none ∧
      s1.throttle = s.throttle + n := by
  induction n with
  | zero => intro s hpc hq _; exact ⟨[], s, rfl, hpc, hq, rfl⟩
  | succ n ih =>
    intro s hpc hq hle
    have hlt : s.throttle < MaxConnectionNum := by omega
    obtain ⟨acts, s1, hrun, hpc1, hq1, ht1⟩ :=
      ih (mainSelect { s with pc := .checking, wg := s.wg + 1, throttle := s.throttle + 1,
                              looping := s.looping + 1,
                              log := s.log ++ [.acceptConnection 0] })
        (by simp [mainSelect, hq]) (by simp [mainSelect, hq])
        (by simp [mainSelect, hq]; omega)
    refine ⟨.acceptOk 0 :: .acquire :: .check :: acts, s1, ?_, hpc1, hq1, ?_⟩
    · simp only [run, step, hpc, if_true]
      simp only [true_and, hlt, if_true]
      exact hrun
    · rw [ht1]
      simp [mainSelect, hq]
      omega

/-- The gate can fill up: a state with `MaxConnectionNum` tokens outstanding and
the acceptor at its next acquire is reachable. -/
theorem gate_can_fill :
    ∃ acts s, run Sys.init acts = some s ∧ s.throttle = MaxConnectionNum ∧
      s.pc = .acquiring := by
  obtain ⟨acts, s1, hrun, hpc, _, ht⟩ :=
    admit_reaches MaxConnectionNum Sys.init rfl rfl (by simp [Sys.init])
  refine ⟨acts ++ [.acceptOk 0],
    { s1 with pc := .acquiring, wg := s1.wg + 1, log := s1.log ++ [.acceptConnection 0] },
    ?_, ?_, rfl⟩
  · rw [run_append, hrun]
    simp [run, step, hpc]
  · simp [ht, Sys.init]

/-! ## Shutdown of the acceptor -/

theorem step_pastLoop {s s1 : Sys} {a : Action} (hs : s.pastLoop) (h : step s a = some s1) :
    a.inAcceptLoop = false ∧ s1.pastLoop := by
  obtain ⟨hpc, hwg⟩ := hs
  cases a <;> simp only [step] at h
  case handlerResend i =>
    obtain ⟨sig, _, _, _, rfl⟩ := handlerResendSys_some h
    exact ⟨rfl, hpc, hwg⟩
  case sigterm sig =>
    simp at h
    subst h
    exact ⟨rfl, hpc, hwg⟩
  case handlerCheck =>
    split at h <;> simp at h
    subst h
    refine ⟨rfl, ?_⟩
    unfold handlerCheckSys
    split <;> exact ⟨hpc, hwg⟩
  case handlerDone =>
    split at h <;> simp at h
    rename_i hg
    subst h
    refine ⟨rfl, hpc, ?_⟩
    intro hfin
    have := hwg hfin
    simp at hfin
    omega
  case wait =>
    split at h <;> simp at h
    rename_i hg
    subst h
    exact ⟨rfl, Or.inr rfl, fun _ => hg.2⟩
  case handlerLeave =>
    split at h <;> simp at h
    subst h
    exact ⟨rfl, hpc, hwg⟩
  case handlerRelease =>
    split at h <;> simp at h
    subst h
    exact ⟨rfl, hpc, hwg⟩
  all_goals
    split at h <;> simp at h
    rename_i hg
    rcases hpc with hpc | hpc <;> simp [hpc] at hg

theorem run_pastLoop {acts : List Action} :
    ∀ {s s1 : Sys}, s.pastLoop → run s acts = some s1 →
      (∀ a ∈ acts, a.inAcceptLoop = false) ∧ s1.pastLoop := by
  induction acts with
  | nil => intro s s1 hs h; simp [run] at h; subst h; exact ⟨by simp, hs⟩
  | cons a as ih =>
    intro s s1 hs h
    simp only [run] at h
    split at h
    · rename_i s2 hstep
      obtain ⟨ha, hs2⟩ := step_pastLoop hs hstep
      obtain ⟨hrest, hs1⟩ := ih hs2 h
      refine ⟨?_, hs1⟩
      intro b hb
      rcases List.mem_cons.mp hb with rfl | hb
      · exact ha
      · exact hrest b hb
    · simp at h

/-- C8. In every run of `main`, once the shutdown check of the accept loop has
received the signal, the loop is over: that check takes `main` to `wg.Wait()`,
no accept, token acquire with handler dispatch, or further check occurs
afterwards, and `main` returns only with the wait group at zero. -/
theorem no_accept_after_signal (pre post : List Action) (s s2 : Sys) (sig : Signal)
    (hpre : main pre = some s) (hq : s.quit = some sig)
    (hrun : run s (.check :: post) = some s2) :
    (∃ s1, step s .check = some s1 ∧ s1.pc = .waiting ∧ run s1 post = some s2) ∧
    (∀ a ∈ post, a.inAcceptLoop = false) ∧
    (s2.pc = .waiting ∨ s2.pc = .finished) ∧
    (s2.pc = .finished →
      s2.wg = 0 ∧ s2.looping + s2.resending.length + s2.leaving + s2.closing = 0) := by
  simp only [run] at hrun
  cases hstep : step s .check with
  | none => simp [hstep] at hrun
  | some s1 =>
    simp only [hstep] at hrun
    have hs1 : s1 = mainSelect s := by
      simp only [step] at hstep
      split at hstep <;> simp at hstep
      exact hstep.symm
    have hpc1 : s1.pc = .waiting := by
      rw [hs1]; simp [mainSelect, hq]
    have hpast : s1.pastLoop := ⟨Or.inl hpc1, fun hf => by simp [hpc1] at hf⟩
    obtain ⟨hacts, hp2⟩ := run_pastLoop hpast hrun
    have hinv2 : s2.Inv :=
      Sys.inv_run (Sys.inv_step (Sys.inv_run Sys.inv_init hpre) hstep) hrun
    refine ⟨⟨s1, rfl, hpc1, hrun⟩, hacts, hp2.1, ?_⟩
    intro hfin
    have hwg := hp2.2 hfin
    have hg := hinv2.group
    rw [hwg, hfin] at hg
    simp only [reduceCtorEq, if_false, Nat.add_zero] at hg
    exact ⟨hwg, hg.symm⟩

theorem no_accept_after_signal_witness :
    (∃ s1, step { pc := .checking, throttle := 1, quit := some 15, wg := 1, looping := 1,
                  resending := [], leaving := 0, closing := 0,
                  log := [.acceptConnection 7] } .check = some s1 ∧
        s1.pc = .waiting ∧
        run s1 [.handlerLeave, .handlerRelease, .handlerDone, .wait] =
          some { pc := .finished, throttle := 0, quit := none, wg := 0, looping := 0,
                 resending := [], leaving := 0, closing := 0,
                 log := [.acceptConnection 7, .receiveSignal 15, .shutdownGracefully] }) ∧
    (∀ a ∈ [Action.handlerLeave, .handlerRelease, .handlerDone, .wait],
        a.inAcceptLoop = false) ∧
    ((Pc.finished = Pc.waiting ∨ Pc.finished = Pc.finished) ∧
      (Pc.finished = Pc.finished →
        (0 : Nat) = 0 ∧ 0 + ([] : List Signal).length + 0 + 0 = 0)) :=
  no_accept_after_signal [.acceptOk 7, .acquire, .sigterm 15]
    [.handlerLeave, .handlerRelease, .handlerDone, .wait]
    { pc := .checking, throttle := 1, quit := some 15, wg := 1, looping := 1,
      resending := [], leaving := 0, closing := 0, log := [.acceptConnection 7] }
    { pc := .finished, throttle := 0, quit := none, wg := 0, looping := 0,
      resending := [], leaving := 0, closing := 0,
      log := [.acceptConnection 7, .receiveSignal 15, .shutdownGracefully] }
    15 (by decide) rfl (by decide)

/-- C4 (evaluation of the code). With one handler running and `SIGTERM`
pending, the shutdown check of `main` receives the signal and leaves `quit`
empty: the handler's next shutdown check finds nothing, the handler stays in
its loop, and `wg.Wait()` cannot return. -/
theorem acceptor_consumes_notice :
    main [.acceptOk 7, .acquire, .sigterm SIGTERM] =
      some { pc := .checking, throttle := 1, quit := some SIGTERM, wg := 1, looping := 1,
             resending := [], leaving := 0, closing := 0, log := [.acceptConnection 7] } ∧
    main [.acceptOk 7, .acquire, .sigterm SIGTERM, .check, .handlerCheck] =
      some { pc := .waiting, throttle := 1, quit := none, wg := 1, looping := 1,
             resending := [], leaving := 0, closing := 0,
             log := [.acceptConnection 7, .receiveSignal SIGTERM] } ∧
    main [.acceptOk 7, .acquire, .sigterm SIGTERM, .check, .handlerCheck, .wait] =
      none ∧
    (handlerSelect
      { freshWorld [] .eof with
        quit := (mainSelect { pc := .checking, throttle := 1, quit := some SIGTERM, wg := 1,
                              looping := 1, resending := [], leaving := 0, closing := 0,
                              log := [] }).quit }
      true).2 = .again := by
  decide

/-! ## The shape of one iteration of `handle` -/

theorem Wrote.refl (w : World) : Wrote w w [] := by
  constructor <;> simp

theorem Wrote.trans {w w1 w2 : World} {a b : List Send} (h1 : Wrote w w1 a)
    (h2 : Wrote w1 w2 b) : Wrote w w2 (a ++ b) := by
  obtain ⟨t1, i1, e1, o1, c1, q1, a1, th1, rf1⟩ := h1
  obtain ⟨t2, i2, e2, o2, c2, q2, a2, th2, rf2⟩ := h2
  constructor
  · rw [t2, t1]; simp
  all_goals simp [*]

theorem connWrite_wrote (w : World) (p : List Byte) :
    Wrote w (connWrite w p).1 [(p, (connWrite w p).2.1, (connWrite w p).2.2)] := by
  unfold connWrite
  cases hc : w.credit with
  | none => constructor <;> simp [emit, Send.event]
  | some k =>
    by_cases hk : p.length ≤ k
    · simp only [hk, if_true]
      constructor <;> simp [emit, Send.event]
    · simp only [hk, if_false]
      constructor <;> simp [emit, Send.event]

theorem flush_wrote (w : World) : ∃ sends, Wrote w (flush w).1 sends := by
  unfold flush
  cases hw : w.werr with
  | some e => exact ⟨[], Wrote.refl w⟩
  | none =>
    by_cases hb : w.wbuf.length = 0
    · simp only [hb, if_true]
      exact ⟨[], Wrote.refl w⟩
    · simp only [hb, if_false]
      have hcw := connWrite_wrote w w.wbuf
      rcases hres : connWrite w w.wbuf with ⟨w1, n, err⟩
      rw [hres] at hcw
      refine ⟨[(w.wbuf, n, err)], ?_⟩
      obtain ⟨t1, i1, e1, o1, c1, q1, a1, th1, rf1⟩ := hcw
      cases err with
      | none => constructor <;> simp_all
      | some e => constructor <;> simp_all

theorem writeStringLoop_wrote (fuel : Nat) : ∀ (w : World) (s : List Byte) (nn : Nat),
    ∃ sends, Wrote w (writeStringLoop fuel w s nn).1 sends := by
  induction fuel with
  | zero => intro w s nn; exact ⟨[], Wrote.refl w⟩
  | succ fuel ih =>
    intro w s nn
    simp only [writeStringLoop]
    split
    · obtain ⟨a, ha⟩ :=
        flush_wrote { w with wbuf := w.wbuf ++ s.take (min s.length (bufSize - w.wbuf.length)) }
      obtain ⟨b, hb⟩ := ih
        (flush { w with wbuf := w.wbuf ++ s.take (min s.length (bufSize - w.wbuf.length)) }).1
        (s.drop (min s.length (bufSize - w.wbuf.length)))
        (nn + min s.length (bufSize - w.wbuf.length))
      refine ⟨a ++ b, Wrote.trans ?_ hb⟩
      obtain ⟨t1, i1, e1, o1, c1, q1, a1, th1, rf1⟩ := ha
      constructor <;> simp_all
    · exact ⟨[], Wrote.refl w⟩

theorem writeString_wrote (w : World) (s : List Byte) :
    ∃ sends, Wrote w (writeString w s).1 sends := by
  unfold writeString
  obtain ⟨a, ha⟩ := writeStringLoop_wrote (s.length + 2) w s 0
  rcases hres : writeStringLoop (s.length + 2) w s 0 with ⟨w1, s1, nn⟩
  rw [hres] at ha
  refine ⟨a, ?_⟩
  simp only
  cases hw : w1.werr with
  | some e => simpa using ha
  | none =>
    obtain ⟨t1, i1, e1, o1, c1, q1, a1, th1, rf1⟩ := ha
    constructor <;> simp_all

theorem emit_trace (w : World) (e : Event) : (emit w e).trace = w.trace ++ [e] := rfl

theorem onError_trace (w : World) (r : Bool) (f : Err → LogEntry) (e : Option Err) :
    (onError w r f e).1.trace = w.trace ++ errLog f e := by
  cases e <;> simp [onError, errLog, emit]

theorem onError_running (w : World) (r : Bool) (f : Err → LogEntry) (e : Option Err) :
    (onError w r f e).2 = (r && e.isNone) := by
  cases e <;> simp [onError]

theorem onError_frame (w : World) (r : Bool) (f : Err → LogEntry) (e : Option Err) :
    (onError w r f e).1.input = w.input ∧ (onError w r f e).1.inErr = w.inErr ∧
    (onError w r f e).1.wbuf = w.wbuf ∧ (onError w r f e).1.werr = w.werr ∧
    (onError w r f e).1.credit = w.credit ∧ (onError w r f e).1.outErr = w.outErr ∧
    (onError w r f e).1.closeErr = w.closeErr ∧ (onError w r f e).1.quit = w.quit ∧
    (onError w r f e).1.arrivals = w.arrivals ∧ (onError w r f e).1.throttle = w.throttle := by
  cases e <;> simp [onError, emit]

theorem readString_frame (w : World) (d : Byte) :
    (readString w d).1.trace = w.trace ∧ (readString w d).1.inErr = w.inErr ∧
    (readString w d).1.wbuf = w.wbuf ∧ (readString w d).1.werr = w.werr ∧
    (readString w d).1.credit = w.credit ∧ (readString w d).1.outErr = w.outErr ∧
    (readString w d).1.closeErr = w.closeErr ∧ (readString w d).1.quit = w.quit ∧
    (readString w d).1.arrivals = w.arrivals ∧ (readString w d).1.throttle = w.throttle := by
  unfold readString
  split <;> simp

theorem deliver_frame (w : World) :
    (deliver w).trace = w.trace ∧ (deliver w).input = w.input ∧
    (deliver w).inErr = w.inErr ∧ (deliver w).wbuf = w.wbuf ∧ (deliver w).werr = w.werr ∧
    (deliver w).credit = w.credit ∧ (deliver w).outErr = w.outErr ∧
    (deliver w).closeErr = w.closeErr ∧ (deliver w).throttle = w.throttle ∧
    (deliver w).arrivals = w.arrivals.tail ∧
    (deliver w).quit = notify w.quit (w.arrivals.head?.getD none) := by
  unfold deliver
  cases ha : w.arrivals with
  | nil => cases hq : w.quit <;> simp [notify, ha]
  | cons a rest => simp

theorem onError_refill (w : World) (r : Bool) (f : Err → LogEntry) (e : Option Err) :
    (onError w r f e).1.refill = w.refill := by
  cases e <;> simp [onError, emit]

theorem readString_refill (w : World) (d : Byte) : (readString w d).1.refill = w.refill := by
  unfold readString
  split <;> simp

theorem deliver_refill (w : World) : (deliver w).refill = w.refill := by
  unfold deliver
  cases ha : w.arrivals <;> simp

theorem handlerSelect_spec (w : World) (r : Bool) :
    (handlerSelect w r).1.trace = w.trace ++ selectEvents w.quit w.refill ∧
    (handlerSelect w r).2 = selectFlow r w.quit w.refill ∧
    (handlerSelect w r).1.quit = quitAfter w.quit w.refill ∧
    (handlerSelect w r).1.input = w.input ∧
    (handlerSelect w r).1.throttle = w.throttle ∧
    (handlerSelect w r).1.closeErr = w.closeErr ∧
    (handlerSelect w r).1.arrivals = w.arrivals ∧
    (handlerSelect w r).1.wbuf = w.wbuf ∧
    (handlerSelect w r).1.werr = w.werr ∧
    (handlerSelect w r).1.credit = w.credit ∧
    (handlerSelect w r).1.inErr = w.inErr ∧
    (handlerSelect w r).1.outErr = w.outErr ∧
    (handlerSelect w r).1.refill = (if w.quit.isSome then none else w.refill) := by
  unfold handlerSelect
  cases hq : w.quit with
  | none => simp [emit, selectEvents, selectFlow, quitAfter, hq]
  | some sig =>
    cases hr : w.refill with
    | none => simp [emit, selectEvents, selectFlow, quitAfter, notify, hr]
    | some s2 => simp [emit, selectEvents, selectFlow, quitAfter, notify, hr]

theorem handleIter_eq (w : World) :
    handleIter w =
      handlerSelect (deliver (beforeSelect w))
        ((readString w newline).2.2.isNone &&
          (writeString (beforeWrite w) (readString w newline).2.1).2.2.isNone &&
          (flush (beforeFlush w)).2.isNone) := by
  simp only [handleIter, beforeSelect, beforeFlush, beforeWrite, onError_running,
    Bool.true_and]

theorem beforeWrite_spec (w : World) :
    (beforeWrite w).trace = w.trace ++
      (.read (readString w newline).2.1 (readString w newline).2.2 ::
        errLog .readFailed (readString w newline).2.2 ++
        [.log (.readMessage (readString w newline).2.1)]) ∧
    (beforeWrite w).input = (readString w newline).1.input ∧
    (beforeWrite w).inErr = w.inErr ∧ (beforeWrite w).wbuf = w.wbuf ∧
    (beforeWrite w).werr = w.werr ∧ (beforeWrite w).credit = w.credit ∧
    (beforeWrite w).outErr = w.outErr ∧ (beforeWrite w).closeErr = w.closeErr ∧
    (beforeWrite w).quit = w.quit ∧ (beforeWrite w).arrivals = w.arrivals ∧
    (beforeWrite w).throttle = w.throttle := by
  obtain ⟨h1, h2, h3, h4, h5, h6, h7, h8, h9, h10⟩ := readString_frame w newline
  unfold beforeWrite
  cases hr : (readString w newline).2.2 <;> simp [onError, emit, errLog, *]

theorem handleIter_shape (w : World) (sa sb : List Send)
    (ha : Wrote (beforeWrite w) (writeString (beforeWrite w) (readString w newline).2.1).1 sa)
    (hb : Wrote (beforeFlush w) (flush (beforeFlush w)).1 sb) :
    (handleIter w).1.trace = w.trace ++ (iterOf w sa sb).events ∧
    (handleIter w).2 = (iterOf w sa sb).flow ∧
    (handleIter w).1.input = (readString w newline).1.input ∧
    (handleIter w).1.throttle = w.throttle ∧
    (handleIter w).1.closeErr = w.closeErr ∧
    (handleIter w).1.quit = quitAfter (deliver w).quit w.refill ∧
    (handleIter w).1.arrivals = w.arrivals.tail ∧
    (handleIter w).1.refill = (if (deliver w).quit.isSome then none else w.refill) := by
  obtain ⟨b1, b2, b3, b4, b5, b6, b7, b8, b9, b10, b11⟩ := beforeWrite_spec w
  have hbf : (beforeFlush w).trace = (beforeWrite w).trace ++ sa.map Send.event ++
        (.writeString (readString w newline).2.1
          (writeString (beforeWrite w) (readString w newline).2.1).2.1
          (writeString (beforeWrite w) (readString w newline).2.1).2.2 ::
          errLog .writeFailed (writeString (beforeWrite w) (readString w newline).2.1).2.2) ∧
      (beforeFlush w).input = (beforeWrite w).input ∧
      (beforeFlush w).throttle = (beforeWrite w).throttle ∧
      (beforeFlush w).closeErr = (beforeWrite w).closeErr ∧
      (beforeFlush w).quit = (beforeWrite w).quit ∧
      (beforeFlush w).arrivals = (beforeWrite w).arrivals := by
    obtain ⟨f1, f2, f3, f4, f5, f6, f7, f8, f9, f10⟩ :=
      onError_frame (emit (writeString (beforeWrite w) (readString w newline).2.1).1
        (.writeString (readString w newline).2.1
          (writeString (beforeWrite w) (readString w newline).2.1).2.1
          (writeString (beforeWrite w) (readString w newline).2.1).2.2))
        (true && (readString w newline).2.2.isNone) .writeFailed
        (writeString (beforeWrite w) (readString w newline).2.1).2.2
    unfold beforeFlush
    rw [onError_trace, emit_trace, ha.trace, f1, f10, f7, f8, f9]
    simp [emit, ha.input, ha.throttle, ha.closeErr, ha.quit, ha.arrivals]
  obtain ⟨g1, g2, g3, g4, g5, g6⟩ := hbf
  have hbs : (beforeSelect w).trace = (flush (beforeFlush w)).1.trace ++
        (.flush (flush (beforeFlush w)).2 :: errLog .flushFailed (flush (beforeFlush w)).2 ++
          [.log (.writeResponse (readString w newline).2.1
            (writeString (beforeWrite w) (readString w newline).2.1).2.1)]) ∧
      (beforeSelect w).input = (flush (beforeFlush w)).1.input ∧
      (beforeSelect w).throttle = (flush (beforeFlush w)).1.throttle ∧
      (beforeSelect w).closeErr = (flush (beforeFlush w)).1.closeErr ∧
      (beforeSelect w).quit = (flush (beforeFlush w)).1.quit ∧
      (beforeSelect w).arrivals = (flush (beforeFlush w)).1.arrivals := by
    obtain ⟨f1, f2, f3, f4, f5, f6, f7, f8, f9, f10⟩ :=
      onError_frame (emit (flush (beforeFlush w)).1 (.flush (flush (beforeFlush w)).2))
        ((readString w newline).2.2.isNone &&
          (writeString (beforeWrite w) (readString w newline).2.1).2.2.isNone)
        .flushFailed (flush (beforeFlush w)).2
    unfold beforeSelect
    rw [emit_trace, onError_trace, emit_trace]
    refine ⟨by simp, ?_, ?_, ?_, ?_, ?_⟩
    · show (onError _ _ _ _).1.input = _
      rw [f1]; rfl
    · show (onError _ _ _ _).1.throttle = _
      rw [f10]; rfl
    · show (onError _ _ _ _).1.closeErr = _
      rw [f7]; rfl
    · show (onError _ _ _ _).1.quit = _
      rw [f8]; rfl
    · show (onError _ _ _ _).1.arrivals = _
      rw [f9]; rfl
  obtain ⟨k1, k2, k3, k4, k5, k6⟩ := hbs
  have hquit : (deliver (beforeSelect w)).quit = (deliver w).quit := by
    rw [(deliver_frame _).2.2.2.2.2.2.2.2.2.2, (deliver_frame w).2.2.2.2.2.2.2.2.2.2,
      k5, k6, hb.quit, hb.arrivals, g5, g6, b9, b10]
  have hrefill : (deliver (beforeSelect w)).refill = w.refill := by
    rw [deliver_refill]
    unfold beforeSelect
    show (onError _ _ _ _).1.refill = _
    rw [onError_refill]
    show (flush (beforeFlush w)).1.refill = _
    rw [hb.refill]
    unfold beforeFlush
    rw [onError_refill]
    show (writeString (beforeWrite w) (readString w newline).2.1).1.refill = _
    rw [ha.refill]
    unfold beforeWrite
    show (onError _ _ _ _).1.refill = _
    rw [onError_refill]
    show (readString w newline).1.refill = _
    rw [readString_refill]
  obtain ⟨s1, s2, s3, s4, s5, s6, s7, _, _, _, _, _, s13⟩ :=
    handlerSelect_spec (deliver (beforeSelect w))
      ((readString w newline).2.2.isNone &&
        (writeString (beforeWrite w) (readString w newline).2.1).2.2.isNone &&
        (flush (beforeFlush w)).2.isNone)
  obtain ⟨d1, d2, _, _, _, _, _, d8, d9, d10, _⟩ := deliver_frame (beforeSelect w)
  refine ⟨?_, ?_, ?_, ?_, ?_, ?_, ?_, ?_⟩
  · rw [handleIter_eq, s1, d1, k1, hb.trace, g1, b1, hquit, hrefill]
    simp [Iter.events, iterOf]
  · rw [handleIter_eq, s2, hquit, hrefill]
    simp [Iter.flow, Iter.running, iterOf]
  · rw [handleIter_eq, s4, d2, k2, hb.input, g2, b2]
  · rw [handleIter_eq, s5, d9, k3, hb.throttle, g3, b11]
  · rw [handleIter_eq, s6, d8, k4, hb.closeErr, g4, b8]
  · rw [handleIter_eq, s3, hquit, hrefill]
  · rw [handleIter_eq, s7, d10, k6, hb.arrivals, g6, b10]
  · rw [handleIter_eq, s13, hquit, hrefill]

theorem handleIter_iter (w : World) : ∃ it : Iter,
    (handleIter w).1.trace = w.trace ++ it.events ∧
    (handleIter w).2 = it.flow ∧
    it.s = (readString w newline).2.1 ∧
    it.rerr = (readString w newline).2.2 ∧
    it.sig = (deliver w).quit ∧
    (handleIter w).1.input = (readString w newline).1.input ∧
    (handleIter w).1.throttle = w.throttle ∧
    (handleIter w).1.closeErr = w.closeErr ∧
    (handleIter w).1.quit = quitAfter (deliver w).quit w.refill ∧
    (handleIter w).1.arrivals = w.arrivals.tail ∧
    it.refill = w.refill ∧
    (handleIter w).1.refill = (if (deliver w).quit.isSome then none else w.refill) := by
  obtain ⟨sa, ha⟩ := writeString_wrote (beforeWrite w) (readString w newline).2.1
  obtain ⟨sb, hb⟩ := flush_wrote (beforeFlush w)
  obtain ⟨h1, h2, h3, h4, h5, h6, h7, h8⟩ := handleIter_shape w sa sb ha hb
  exact ⟨iterOf w sa sb, h1, h2, rfl, rfl, rfl, h3, h4, h5, h6, h7, rfl, h8⟩

/-! ## The loop of `handle` -/

theorem splitAtDelim_some {d : Byte} : ∀ {xs line rest : List Byte},
    splitAtDelim d xs = some (line, rest) →
    xs = line ++ rest ∧ ∃ body, line = body ++ [d] ∧ d ∉ body := by
  intro xs
  induction xs with
  | nil => intro line rest h; simp [splitAtDelim] at h
  | cons b bs ih =>
    intro line rest h
    simp only [splitAtDelim] at h
    by_cases hb : b = d
    · simp only [hb, if_true, Option.some.injEq, Prod.mk.injEq] at h
      obtain ⟨rfl, rfl⟩ := h
      exact ⟨by simp [hb], [], by simp, by simp⟩
    · simp only [hb, if_false] at h
      cases hs : splitAtDelim d bs with
      | none => simp [hs] at h
      | some pr =>
        obtain ⟨l1, r1⟩ := pr
        simp only [hs, Option.some.injEq, Prod.mk.injEq] at h
        obtain ⟨rfl, rfl⟩ := h
        obtain ⟨hx, body, hl, hn⟩ := ih hs
        refine ⟨by simp [hx], b :: body, by simp [hl], ?_⟩
        simp only [List.mem_cons, not_or]
        exact ⟨fun e => hb e.symm, hn⟩

theorem splitAtDelim_none {d : Byte} : ∀ {xs : List Byte},
    splitAtDelim d xs = none ↔ d ∉ xs := by
  intro xs
  induction xs with
  | nil => simp [splitAtDelim]
  | cons b bs ih =>
    simp only [splitAtDelim]
    by_cases hb : b = d
    · simp [hb]
    · simp only [hb, if_false, List.mem_cons, not_or]
      cases hs : splitAtDelim d bs with
      | none =>
        simp only [true_iff]
        exact ⟨fun e => hb e.symm, ih.mp hs⟩
      | some pr =>
        constructor
        · intro h; simp at h
        · intro hc
          have := ih.mpr hc.2
          simp [hs] at this

theorem splitAtDelim_line {d : Byte} (body rest : List Byte) (h : d ∉ body) :
    splitAtDelim d (body ++ d :: rest) = some (body ++ [d], rest) := by
  induction body with
  | nil => simp [splitAtDelim]
  | cons b bs ih =>
    simp only [List.mem_cons, not_or] at h
    have hb : ¬ b = d := fun e => h.1 e.symm
    simp [splitAtDelim, hb, ih h.2]

theorem readString_shrinks (w : World) (d : Byte) (h : (readString w d).2.2 = none) :
    (readString w d).1.input.length < w.input.length := by
  unfold readString at h ⊢
  cases hs : splitAtDelim d w.input with
  | none => simp [hs] at h
  | some pr =>
    obtain ⟨line, rest⟩ := pr
    obtain ⟨hx, body, hl, _⟩ := splitAtDelim_some hs
    simp only
    rw [hx, hl]
    simp only [List.length_append, List.length_cons, List.length_nil]
    omega

theorem Iter.running_iff (it : Iter) :
    it.running = true ↔ it.rerr = none ∧ it.werr = none ∧ it.ferr = none := by
  simp [Iter.running, and_assoc]

theorem Iter.flow_again_iff (it : Iter) :
    it.flow = .again ↔ it.rerr = none ∧ it.werr = none ∧ it.ferr = none ∧ it.sig = none := by
  rcases it with ⟨s, rerr, sends1, n, werr, sends2, ferr, sig, refill⟩
  cases rerr <;> cases werr <;> cases ferr <;> cases sig <;> cases refill <;>
    simp [Iter.flow, Iter.running, selectFlow]

theorem Iter.flow_parked_iff (it : Iter) :
    it.flow = .parked ↔ it.sig ≠ none ∧ it.refill ≠ none := by
  rcases it with ⟨s, rerr, sends1, n, werr, sends2, ferr, sig, refill⟩
  cases rerr <;> cases werr <;> cases ferr <;> cases sig <;> cases refill <;>
    simp [Iter.flow, Iter.running, selectFlow]

/-- The loop returns whenever the fuel exceeds the length of the pending input
and no signal is delivered between the receive and the re-send of a shutdown
check. -/
theorem handleLoop_total (fuel : Nat) : ∀ w : World, w.input.length < fuel →
    w.refill = none → ∃ w1, handleLoop fuel w = some w1 := by
  induction fuel with
  | zero => intro w h; omega
  | succ fuel ih =>
    intro w h hrf
    simp only [handleLoop]
    obtain ⟨it, _, hflow, _, hrerr, _, hin, _, _, _, _, hitr, hrf1⟩ := handleIter_iter w
    rcases hres : handleIter w with ⟨w1, r⟩
    rw [hres] at hflow hin hrf1
    simp only at hin hflow hrf1
    cases r with
    | leave => exact ⟨w1, rfl⟩
    | parked =>
      exfalso
      have hp := (Iter.flow_parked_iff it).mp hflow.symm
      exact hp.2 (by rw [hitr, hrf])
    | again =>
      simp only
      apply ih
      · have hr := (Iter.flow_again_iff it).mp hflow.symm
        have := readString_shrinks w newline (hrerr ▸ hr.1)
        rw [hin]
        omega
      · rw [hrf1, hrf]
        simp

/-- The result of the loop does not depend on the fuel it was given. -/
theorem handleLoop_fuel (f1 : Nat) : ∀ (f2 : Nat) (w a b : World),
    handleLoop f1 w = some a → handleLoop f2 w = some b → a = b := by
  induction f1 with
  | zero => intro f2 w a b h; simp [handleLoop] at h
  | succ f1 ih =>
    intro f2 w a b h1 h2
    cases f2 with
    | zero => simp [handleLoop] at h2
    | succ f2 =>
      simp only [handleLoop] at h1 h2
      rcases hres : handleIter w with ⟨w1, r⟩
      rw [hres] at h1 h2
      cases r with
      | leave =>
        simp only [Option.some.injEq] at h1 h2
        rw [← h1, ← h2]
      | parked => simp at h1
      | again => exact ih f2 w1 a b h1 h2

/-- A run of the loop that returns is a sequence of iterations after which the
loop goes on, followed by one after which it ends. -/
theorem handleLoop_shape (fuel : Nat) : ∀ (w w1 : World), handleLoop fuel w = some w1 →
    ∃ (its : List Iter) (last : Iter),
      w1.trace = w.trace ++ (its.map Iter.events).flatten ++ last.events ∧
      (∀ it ∈ its, it.flow = .again) ∧ last.flow = .leave ∧
      w1.throttle = w.throttle ∧ w1.closeErr = w.closeErr := by
  induction fuel with
  | zero => intro w w1 h; simp [handleLoop] at h
  | succ fuel ih =>
    intro w w1 h
    simp only [handleLoop] at h
    obtain ⟨it, htr, hrun, _, _, _, _, hth, hce, _⟩ := handleIter_iter w
    rcases hres : handleIter w with ⟨w2, r⟩
    rw [hres] at h htr hrun hth hce
    simp only at htr hrun hth hce
    cases r with
    | leave =>
      simp only [Option.some.injEq] at h
      subst h
      exact ⟨[], it, by simp [htr], by simp, hrun.symm, hth, hce⟩
    | parked => simp at h
    | again =>
      simp only at h
      obtain ⟨its, last, h1, h2, h3, h4, h5⟩ := ih w2 w1 h
      refine ⟨it :: its, last, ?_, ?_, h3, by rw [h4, hth], by rw [h5, hce]⟩
      · rw [h1, htr]; simp
      · intro x hx
        rcases List.mem_cons.mp hx with rfl | hx
        · exact hrun.symm
        · exact h2 x hx

/-- A run of `handle` returns when a token is there to receive and no signal
is delivered between the receive and the re-send of a shutdown check. -/
theorem handle_total (w : World) (h : 0 < w.throttle) (hrf : w.refill = none) :
    ∃ w1, handle w = some w1 := by
  obtain ⟨w1, h1⟩ := handleLoop_total (w.input.length + 1) w (by omega) hrf
  obtain ⟨_, _, _, _, _, hth, _⟩ := handleLoop_shape _ w w1 h1
  have hne : ¬ w1.throttle = 0 := by omega
  exact ⟨deferredClose (emit { w1 with throttle := w1.throttle - 1 } .release), by
    simp [handle, h1, releaseToken, hne]⟩

/-- A run of `handle` fails to return only when the receive from `throttle`
blocks or the re-send on `quit` does, never for lack of fuel. -/
theorem handle_none_cases (w : World) (h : handle w = none) :
    w.throttle = 0 ∨ w.refill ≠ none := by
  by_contra hc
  simp only [not_or, not_not] at hc
  obtain ⟨w1, h1⟩ := handle_total w (by omega) hc.2
  rw [h] at h1
  simp at h1

theorem deferredClose_spec (w : World) :
    (deferredClose w).trace = w.trace ++ (.close w.closeErr :: errLog .closeFailed w.closeErr) ∧
    (deferredClose w).throttle = w.throttle ∧ (deferredClose w).quit = w.quit := by
  unfold deferredClose connClose
  cases hc : w.closeErr <;> simp [emit, errLog]

/-- A run of `handle` that returns is a run of the loop, then the receive from
`throttle`, then the deferred close. -/
theorem handle_shape (w w1 : World) (h : handle w = some w1) :
    ∃ (its : List Iter) (last : Iter),
      w1.trace = w.trace ++ ((its.map Iter.events).flatten ++ last.events) ++
        (.release :: .close w.closeErr :: errLog .closeFailed w.closeErr) ∧
      (∀ it ∈ its, it.flow = .again) ∧ last.flow = .leave ∧
      w1.throttle + 1 = w.throttle := by
  unfold handle at h
  cases hl : handleLoop (w.input.length + 1) w with
  | none => simp [hl] at h
  | some w2 =>
    simp only [hl] at h
    obtain ⟨its, last, h1, h2, h3, h4, h5⟩ := handleLoop_shape _ w w2 hl
    unfold releaseToken at h
    by_cases hz : w2.throttle = 0
    · simp [hz] at h
    · simp only [hz, if_false, Option.some.injEq] at h
      subst h
      obtain ⟨d1, d2, _⟩ :=
        deferredClose_spec (emit { w2 with throttle := w2.throttle - 1 } .release)
      refine ⟨its, last, ?_, h2, h3, ?_⟩
      · rw [d1]
        simp [emit, h1, h5]
      · rw [d2]
        simp only [emit]
        omega

/-! ## What the events of a run are -/

theorem Send.event_inLoop (x : Send) : x.event.inLoop = true := rfl

theorem Iter.events_inLoop (it : Iter) : ∀ e ∈ it.events, e.inLoop = true := by
  intro e he
  rcases it with ⟨s, rerr, sends1, n, werr, sends2, ferr, sig, refill⟩
  cases rerr <;> cases werr <;> cases ferr <;> cases sig <;> cases refill <;>
    simp only [Iter.events, errLog, selectEvents, List.mem_cons, List.mem_append, List.mem_map,
      List.mem_nil_iff, List.append_nil, List.nil_append, or_false, false_or,
      List.mem_singleton] at he <;>
    casesm* _ ∨ _, ∃ _, _, _ ∧ _ <;>
    subst_vars <;> rfl

theorem flatten_inLoop (its : List Iter) :
    ∀ e ∈ (its.map Iter.events).flatten, e.inLoop = true := by
  intro e he
  simp only [List.mem_flatten, List.mem_map] at he
  obtain ⟨l, ⟨it, _, rfl⟩, hel⟩ := he
  exact Iter.events_inLoop it e hel

theorem count_release_inLoop : ∀ (evs : List Event), (∀ e ∈ evs, e.inLoop = true) →
    evs.count .release = 0 := by
  intro evs h
  rw [List.count_eq_zero]
  intro hmem
  have := h _ hmem
  simp [Event.inLoop] at this

theorem precedes_inLoop : ∀ (pre rest : List Event) (c : Option Err),
    (∀ e ∈ pre, e.inLoop = true) →
    releasePrecedesClose (pre ++ .release :: .close c :: rest) = true ∧
    closePrecedesRelease (pre ++ .release :: .close c :: rest) = false := by
  intro pre
  induction pre with
  | nil => intro rest c _; simp [releasePrecedesClose, closePrecedesRelease, Event.isClose]
  | cons e es ih =>
    intro rest c h
    have he := h e (by simp)
    have hes := ih rest c (fun x hx => h x (by simp [hx]))
    cases e <;> simp_all [Event.inLoop, releasePrecedesClose, closePrecedesRelease]

/-- A run of the loop that returns with some fuel returns with any fuel that
exceeds the length of the pending input. -/
theorem handleLoop_enough (f : Nat) : ∀ (w a : World), handleLoop f w = some a →
    ∀ f1, w.input.length < f1 → handleLoop f1 w = some a := by
  induction f with
  | zero => intro w a h; simp [handleLoop] at h
  | succ f ih =>
    intro w a h f1 hf1
    cases f1 with
    | zero => omega
    | succ f1 =>
      simp only [handleLoop] at h ⊢
      obtain ⟨it, _, hflow, _, hrerr, _, hin, _⟩ := handleIter_iter w
      rcases hres : handleIter w with ⟨w1, r⟩
      rw [hres] at h hflow hin
      simp only at hin hflow
      cases r with
      | leave => exact h
      | parked => simp at h
      | again =>
        simp only at h ⊢
        apply ih w1 a h
        have hr := (Iter.flow_again_iff it).mp hflow.symm
        have := readString_shrinks w newline (hrerr ▸ hr.1)
        rw [hin]
        omega

theorem handle_of_loop (w w2 : World) (fuel : Nat) (h : handleLoop fuel w = some w2) :
    handle w = (releaseToken w2).map deferredClose := by
  have h3 := handleLoop_enough fuel w w2 h (w.input.length + 1) (by omega)
  unfold handle
  rw [h3]
  simp only
  cases hrel : releaseToken w2 <;> simp [hrel]

theorem handleLoop_stop (w : World) (fuel : Nat) (h : (handleIter w).2 = .leave) :
    handleLoop (fuel + 1) w = some (handleIter w).1 := by
  simp only [handleLoop]
  rcases hres : handleIter w with ⟨w1, r⟩
  rw [hres] at h
  simp only at h
  subst h
  rfl

/-- C3. Every run of `handle` that returns has received from `throttle` exactly
once, whatever ended the loop (the state `w` fixes the pending input and read
error, the write and flush failures, the signals delivered and the result of
the close): among the effects of the run there is exactly one release, and
`throttle` holds one element less.  Such runs exist: a run that holds a token
and whose re-send on `quit` is not blocked returns. -/
theorem handle_releases_once (w : World) :
    (0 < w.throttle → w.refill = none → ∃ w1, handle w = some w1) ∧
    ∀ w1, handle w = some w1 →
      ∃ evs, w1.trace = w.trace ++ evs ∧ evs.count .release = 1 ∧
        w1.throttle + 1 = w.throttle := by
  refine ⟨handle_total w, ?_⟩
  intro w1 h
  obtain ⟨its, last, htr, _, _, hth⟩ := handle_shape w w1 h
  refine ⟨_, by rw [htr, List.append_assoc], ?_, hth⟩
  have h1 := count_release_inLoop _ (flatten_inLoop its)
  have h2 := count_release_inLoop _ (Iter.events_inLoop last)
  have h3 : (errLog LogEntry.closeFailed w.closeErr).count .release = 0 := by
    cases w.closeErr <;> simp [errLog]
  simp only [List.count_append, List.count_cons, h1, h2, h3]
  simp

theorem handle_releases_once_witness :
    ∃ w1, handle brokenWorld = some w1 ∧
      ∃ evs, w1.trace = brokenWorld.trace ++ evs ∧ evs.count .release = 1 ∧
        w1.throttle + 1 = brokenWorld.throttle :=
  have h := (handle_releases_once brokenWorld).1 (by decide) rfl
  ⟨h.choose, h.choose_spec, (handle_releases_once brokenWorld).2 h.choose h.choose_spec⟩

/-- C7 (as stated, refuted). In the run on a connection whose peer sends one
line and closes, the close of the connection does not precede the release of
the token. -/
theorem close_first_refuted :
    (handle (freshWorld [104, 105, 10] .eof)).map (fun w => closePrecedesRelease w.trace) =
      some false := by
  decide

/-- C7 (amended). In every run of `handle` that returns, the token is released
first and the connection is closed afterwards: the effects of the run are those
of the loop, none of them a release or a close, then the release, then the close
(the deferred call runs when `handle` returns), then the log line of a failed
close if it failed. -/
theorem release_then_close (w w1 : World) (h : handle w = some w1) :
    ∃ loopEvs, w1.trace = w.trace ++ (loopEvs ++
        (.release :: .close w.closeErr :: errLog .closeFailed w.closeErr)) ∧
      (∀ e ∈ loopEvs, e.inLoop = true) ∧
      releasePrecedesClose (loopEvs ++
        (.release :: .close w.closeErr :: errLog .closeFailed w.closeErr)) = true ∧
      closePrecedesRelease (loopEvs ++
        (.release :: .close w.closeErr :: errLog .closeFailed w.closeErr)) = false := by
  obtain ⟨its, last, htr, _, _, _⟩ := handle_shape w w1 h
  have hin : ∀ e ∈ (its.map Iter.events).flatten ++ last.events, e.inLoop = true := by
    intro e he
    rcases List.mem_append.mp he with he | he
    · exact flatten_inLoop its e he
    · exact Iter.events_inLoop last e he
  obtain ⟨p1, p2⟩ := precedes_inLoop _ (errLog .closeFailed w.closeErr) w.closeErr hin
  exact ⟨_, by rw [htr, List.append_assoc], hin, p1, p2⟩

theorem release_then_close_witness :
    ∃ w1, handle brokenWorld = some w1 ∧
      ∃ loopEvs, w1.trace = brokenWorld.trace ++ (loopEvs ++
          (.release :: .close brokenWorld.closeErr ::
            errLog .closeFailed brokenWorld.closeErr)) ∧
        (∀ e ∈ loopEvs, e.inLoop = true) ∧
        releasePrecedesClose (loopEvs ++
          (.release :: .close brokenWorld.closeErr ::
            errLog .closeFailed brokenWorld.closeErr)) = true ∧
        closePrecedesRelease (loopEvs ++
          (.release :: .close brokenWorld.closeErr ::
            errLog .closeFailed brokenWorld.closeErr)) = false :=
  have h := handle_total brokenWorld (by decide) rfl
  ⟨h.choose, h.choose_spec, release_then_close brokenWorld h.choose h.choose_spec⟩

/-! ## The shutdown notice in a handler -/

/-- In the process, a handler that has received the signal and finds the slot
refilled is blocked in its re-send; it gets through once another goroutine,
here `main` in its own shutdown check, has emptied the slot. -/
theorem resend_blocked_until_drained :
    main [.acceptOk 7, .acquire, .sigterm 15, .handlerCheck, .sigterm 15,
      .handlerResend 0] = none ∧
    main [.acceptOk 7, .acquire, .sigterm 15, .handlerCheck, .sigterm 15, .check,
      .handlerResend 0] =
      some { pc := .waiting, throttle := 1, quit := some 15, wg := 1, looping := 0,
             resending := [], leaving := 1, closing := 0,
             log := [.acceptConnection 7, .receiveSignal 15] } := by
  decide

theorem closing_inert (c : Option Err) :
    ∀ e ∈ (Event.release :: .close c :: errLog .closeFailed c), e.isConnOp = false := by
  intro e he
  cases c <;> simp [errLog] at he <;> casesm* _ ∨ _ <;> subst_vars <;> rfl

theorem Iter.events_tail_noRead (it : Iter) : ∀ e ∈ it.events.tail, e.isRead = false := by
  intro e he
  rcases it with ⟨s, rerr, sends1, n, werr, sends2, ferr, sig, refill⟩
  cases rerr <;> cases werr <;> cases ferr <;> cases sig <;> cases refill <;>
    simp only [Iter.events, errLog, selectEvents, List.mem_cons, List.mem_append, List.mem_map,
      List.mem_nil_iff, List.append_nil, List.nil_append, or_false, false_or,
      List.mem_singleton, List.tail_cons, List.cons_append] at he <;>
    casesm* _ ∨ _, ∃ _, _, _ ∧ _ <;>
    subst_vars <;> rfl

theorem sentBytes_append (a b : List Event) :
    sentBytes (a ++ b) = sentBytes a ++ sentBytes b := by
  induction a with
  | nil => rfl
  | cons e es ih => cases e <;> simp [sentBytes, ih]

theorem sentBytes_inert (evs : List Event) (h : ∀ e ∈ evs, e.isConnOp = false) :
    sentBytes evs = [] := by
  induction evs with
  | nil => rfl
  | cons e es ih =>
    have he := h e (by simp)
    have hes := ih (fun x hx => h x (by simp [hx]))
    cases e <;> simp_all [sentBytes, Event.isConnOp]

theorem Iter.sentBytes_events (it : Iter) :
    sentBytes it.events =
      sentBytes (it.sends1.map Send.event) ++ sentBytes (it.sends2.map Send.event) ∧
    sentBytes it.events.tail =
      sentBytes (it.sends1.map Send.event) ++ sentBytes (it.sends2.map Send.event) := by
  rcases it with ⟨s, rerr, sends1, n, werr, sends2, ferr, sig, refill⟩
  cases rerr <;> cases werr <;> cases ferr <;> cases sig <;> cases refill <;>
    simp [Iter.events, errLog, selectEvents, sentBytes, sentBytes_append]

theorem flush_clean (w : World) (hw : w.werr = none) (hc : w.credit = none) :
    ∃ sends, Wrote w (flush w).1 sends ∧ (flush w).2 = none ∧ (flush w).1.wbuf = [] ∧
      (flush w).1.werr = none ∧ (flush w).1.credit = none ∧
      sentBytes (sends.map Send.event) = w.wbuf := by
  by_cases hb : w.wbuf.length = 0
  · have hfl : flush w = (w, none) := by
      unfold flush
      rw [hw]
      simp only [hb, if_true]
    rw [hfl]
    have : w.wbuf = [] := List.length_eq_zero.mp hb
    exact ⟨[], Wrote.refl w, rfl, this, hw, hc, by simp [this, sentBytes]⟩
  · have hcw : connWrite w w.wbuf =
        (emit w (.connWrite w.wbuf w.wbuf.length none), w.wbuf.length, none) := by
      unfold connWrite
      rw [hc]
    have hfl : flush w =
        ({ emit w (.connWrite w.wbuf w.wbuf.length none) with wbuf := [] }, none) := by
      unfold flush
      rw [hw]
      simp only [hb, if_false, hcw]
    rw [hfl]
    refine ⟨[(w.wbuf, w.wbuf.length, none)], ?_, rfl, rfl, ?_, ?_, ?_⟩
    · constructor <;> simp [emit, Send.event]
    · simpa [emit] using hw
    · simpa [emit] using hc
    · simp [Send.event, sentBytes]

theorem writeStringLoop_clean (fuel : Nat) : ∀ (w : World) (s : List Byte) (nn : Nat),
    w.werr = none → w.credit = none → w.wbuf = [] → s.length < fuel →
    ∃ sends, Wrote w (writeStringLoop fuel w s nn).1 sends ∧
      (writeStringLoop fuel w s nn).1.werr = none ∧
      (writeStringLoop fuel w s nn).1.credit = none ∧
      (writeStringLoop fuel w s nn).1.wbuf = [] ∧
      sentBytes (sends.map Send.event) ++ (writeStringLoop fuel w s nn).2.1 = s ∧
      (writeStringLoop fuel w s nn).2.1.length ≤ bufSize ∧
      (writeStringLoop fuel w s nn).2.2 + (writeStringLoop fuel w s nn).2.1.length =
        nn + s.length := by
  induction fuel with
  | zero => intro w s nn _ _ _ h; omega
  | succ fuel ih =>
    intro w s nn hw hc hb hlen
    have hcond : (s.length > bufSize - w.wbuf.length ∧ w.werr = none) ↔ s.length > bufSize := by
      rw [hb, hw]; simp
    by_cases hbig : s.length > bufSize
    · have hmin : min s.length (bufSize - w.wbuf.length) = bufSize := by
        rw [hb]; simp only [List.length_nil, Nat.sub_zero]; omega
      have hstep : writeStringLoop (fuel + 1) w s nn =
          writeStringLoop fuel (flush { w with wbuf := w.wbuf ++ s.take bufSize }).1
            (s.drop bufSize) (nn + bufSize) := by
        simp only [writeStringLoop]
        rw [if_pos (hcond.mpr hbig), hmin]
      rw [hstep]
      have hpos : 0 < bufSize := by decide
      obtain ⟨sa, f1, f2, f3, f4, f5, f6⟩ :=
        flush_clean { w with wbuf := w.wbuf ++ s.take bufSize } hw hc
      obtain ⟨sb, g1, g2, g3, g4, g5, g6, g7⟩ :=
        ih (flush { w with wbuf := w.wbuf ++ s.take bufSize }).1 (s.drop bufSize)
          (nn + bufSize) f4 f5 f3 (by simp only [List.length_drop]; omega)
      refine ⟨sa ++ sb, Wrote.trans ?_ g1, g2, g3, g4, ?_, g6, ?_⟩
      · obtain ⟨t1, i1, e1, o1, c1, q1, a1, th1, rf1⟩ := f1
        constructor
        · exact t1
        · exact i1
        · exact e1
        · exact o1
        · exact c1
        · exact q1
        · exact a1
        · exact th1
        · exact rf1
      · rw [List.map_append, sentBytes_append, List.append_assoc, g5, f6]
        simp [hb]
      · rw [g7]
        simp only [List.length_drop]
        omega
    · have hstep : writeStringLoop (fuel + 1) w s nn = (w, s, nn) := by
        simp only [writeStringLoop]
        rw [if_neg (fun hc => hbig (hcond.mp hc))]
      rw [hstep]
      exact ⟨[], Wrote.refl w, hw, hc, hb, by simp [sentBytes], by simp only; omega, rfl⟩

theorem writeString_clean (w : World) (s : List Byte) (hw : w.werr = none)
    (hc : w.credit = none) (hb : w.wbuf = []) :
    ∃ sends, Wrote w (writeString w s).1 sends ∧ (writeString w s).2.1 = s.length ∧
      (writeString w s).2.2 = none ∧ (writeString w s).1.werr = none ∧
      (writeString w s).1.credit = none ∧
      sentBytes (sends.map Send.event) ++ (writeString w s).1.wbuf = s := by
  obtain ⟨sa, f1, f2, f3, f4, f5, f6, f7⟩ :=
    writeStringLoop_clean (s.length + 2) w s 0 hw hc hb (by omega)
  have hws : writeString w s =
      ({ (writeStringLoop (s.length + 2) w s 0).1 with
          wbuf := (writeStringLoop (s.length + 2) w s 0).1.wbuf ++
            (writeStringLoop (s.length + 2) w s 0).2.1 },
        (writeStringLoop (s.length + 2) w s 0).2.2 +
          (writeStringLoop (s.length + 2) w s 0).2.1.length, none) := by
    unfold writeString
    simp only
    rw [f2]
  rw [hws]
  refine ⟨sa, ?_, by simp only; omega, rfl, f2, f3, ?_⟩
  · obtain ⟨t1, i1, e1, o1, c1, q1, a1, th1, rf1⟩ := f1
    constructor
    · exact t1
    · exact i1
    · exact e1
    · exact o1
    · exact c1
    · exact q1
    · exact a1
    · exact th1
    · exact rf1
  · simp only [f4, List.nil_append]
    exact f5

theorem beforeFlush_writer (w : World) :
    (beforeFlush w).wbuf = (writeString (beforeWrite w) (readString w newline).2.1).1.wbuf ∧
    (beforeFlush w).werr = (writeString (beforeWrite w) (readString w newline).2.1).1.werr ∧
    (beforeFlush w).credit =
      (writeString (beforeWrite w) (readString w newline).2.1).1.credit ∧
    (beforeFlush w).inErr = (writeString (beforeWrite w) (readString w newline).2.1).1.inErr := by
  obtain ⟨f1, f2, f3, f4, f5, f6, f7, f8, f9, f10⟩ :=
    onError_frame (emit (writeString (beforeWrite w) (readString w newline).2.1).1
      (.writeString (readString w newline).2.1
        (writeString (beforeWrite w) (readString w newline).2.1).2.1
        (writeString (beforeWrite w) (readString w newline).2.1).2.2))
      (true && (readString w newline).2.2.isNone) .writeFailed
      (writeString (beforeWrite w) (readString w newline).2.1).2.2
  unfold beforeFlush
  rw [f3, f4, f5, f2]
  exact ⟨rfl, rfl, rfl, rfl⟩

theorem handleIter_writer (w : World) :
    (handleIter w).1.wbuf = (flush (beforeFlush w)).1.wbuf ∧
    (handleIter w).1.werr = (flush (beforeFlush w)).1.werr ∧
    (handleIter w).1.credit = (flush (beforeFlush w)).1.credit ∧
    (handleIter w).1.inErr = (flush (beforeFlush w)).1.inErr := by
  obtain ⟨_, _, _, _, _, _, _, s8, s9, s10, s11, _⟩ :=
    handlerSelect_spec (deliver (beforeSelect w))
      ((readString w newline).2.2.isNone &&
        (writeString (beforeWrite w) (readString w newline).2.1).2.2.isNone &&
        (flush (beforeFlush w)).2.isNone)
  obtain ⟨_, _, d3, d4, d5, d6, _⟩ := deliver_frame (beforeSelect w)
  obtain ⟨f1, f2, f3, f4, f5, f6, f7, f8, f9, f10⟩ :=
    onError_frame (emit (flush (beforeFlush w)).1 (.flush (flush (beforeFlush w)).2))
      ((readString w newline).2.2.isNone &&
        (writeString (beforeWrite w) (readString w newline).2.1).2.2.isNone)
      .flushFailed (flush (beforeFlush w)).2
  have k : (beforeSelect w).wbuf = (flush (beforeFlush w)).1.wbuf ∧
      (beforeSelect w).werr = (flush (beforeFlush w)).1.werr ∧
      (beforeSelect w).credit = (flush (beforeFlush w)).1.credit ∧
      (beforeSelect w).inErr = (flush (beforeFlush w)).1.inErr := by
    unfold beforeSelect
    refine ⟨?_, ?_, ?_, ?_⟩
    · show (onError _ _ _ _).1.wbuf = _
      rw [f3]; rfl
    · show (onError _ _ _ _).1.werr = _
      rw [f4]; rfl
    · show (onError _ _ _ _).1.credit = _
      rw [f5]; rfl
    · show (onError _ _ _ _).1.inErr = _
      rw [f2]; rfl
  rw [handleIter_eq, s8, s9, s10, s11, d3, d4, d5, d6]
  exact k

theorem deliver_quiet (w : World) (hq : w.quit = none) (ha : ∀ a ∈ w.arrivals, a = none) :
    (deliver w).quit = none ∧ ∀ a ∈ w.arrivals.tail, a = none := by
  refine ⟨?_, fun a h => ha a (List.mem_of_mem_tail h)⟩
  unfold deliver
  cases hl : w.arrivals with
  | nil => simpa using hq
  | cons x xs =>
    have hx : x = none := ha x (by simp [hl])
    simp [hx, hq, notify]

/-- One iteration on a connection without failures: the string read is sent
back whole, nothing fails, and the connection stays without failures. -/
theorem handleIter_clean (w : World) (hq : Quiet w) : ∃ it : Iter,
    (handleIter w).1.trace = w.trace ++ it.events ∧
    (handleIter w).2 = (if it.rerr.isNone then .again else .leave) ∧
    it.s = (readString w newline).2.1 ∧ it.rerr = (readString w newline).2.2 ∧
    it.werr = none ∧ it.ferr = none ∧ it.n = it.s.length ∧ it.sig = none ∧
    sentBytes it.events = it.s ∧ sentBytes it.events.tail = it.s ∧
    Quiet (handleIter w).1 ∧
    (handleIter w).1.input = (readString w newline).1.input ∧
    (handleIter w).1.inErr = w.inErr ∧
    (handleIter w).1.throttle = w.throttle ∧
    (handleIter w).1.closeErr = w.closeErr := by
  obtain ⟨b1, b2, b3, b4, b5, b6, _⟩ := beforeWrite_spec w
  obtain ⟨sa, a1, a2, a3, a4, a5, a6⟩ :=
    writeString_clean (beforeWrite w) (readString w newline).2.1
      (by rw [b5, hq.werr]) (by rw [b6, hq.credit]) (by rw [b4, hq.wbuf])
  obtain ⟨c1, c2, c3, c4⟩ := beforeFlush_writer w
  obtain ⟨sb, f1, f2, f3, f4, f5, f6⟩ :=
    flush_clean (beforeFlush w) (by rw [c2, a4]) (by rw [c3, a5])
  obtain ⟨h1, h2, h3, h4, h5, h6, h7, _⟩ := handleIter_shape w sa sb a1 f1
  obtain ⟨w1, w2, w3, w4⟩ := handleIter_writer w
  obtain ⟨q1, q2⟩ := deliver_quiet w hq.quit hq.arrivals
  have hsent : sentBytes (sa.map Send.event) ++ sentBytes (sb.map Send.event) =
      (readString w newline).2.1 := by
    rw [f6, c1]
    exact a6
  obtain ⟨e1, e2⟩ := Iter.sentBytes_events (iterOf w sa sb)
  refine ⟨iterOf w sa sb, h1, ?_, rfl, rfl, a3, f2, a2, q1, ?_, ?_, ?_, h3, ?_, h4, h5⟩
  · rw [h2]
    simp [Iter.flow, selectFlow, Iter.running, iterOf, a3, f2, q1]
  · rw [e1]; exact hsent
  · rw [e2]; exact hsent
  · exact ⟨by rw [w1, f3], by rw [w2, f4], by rw [w3, f5], by rw [h6, q1]; rfl,
      by rw [h7]; exact q2⟩
  · rw [w4, f1.inErr, c4, a1.inErr, b3]

/-! ## Echo of whole lines -/

theorem exchangesFrom_inert : ∀ (evs rest : List Event), (∀ e ∈ evs, e.isRead = false) →
    exchangesFrom (evs ++ rest) =
      (sentBytes evs ++ (exchangesFrom rest).1, (exchangesFrom rest).2) := by
  intro evs
  induction evs with
  | nil => intro rest _; simp [sentBytes]
  | cons e es ih =>
    intro rest h
    have he := h e (by simp)
    have hes := ih rest (fun x hx => h x (by simp [hx]))
    cases e <;> simp_all [exchangesFrom, sentBytes, Event.isRead]

theorem exchangesFrom_iter (it : Iter) (rest : List Event) :
    exchangesFrom (it.events ++ rest) =
      ([], (it.s, sentBytes it.events.tail ++ (exchangesFrom rest).1) ::
        (exchangesFrom rest).2) := by
  have hlast : it.events = Event.read it.s it.rerr :: it.events.tail := by
    simp [Iter.events]
  rw [hlast, List.cons_append]
  simp only [exchangesFrom, List.tail_cons]
  rw [exchangesFrom_inert _ rest (Iter.events_tail_noRead it)]

theorem exchangesFrom_quiet (tail : List Event) (h : ∀ e ∈ tail, e.isConnOp = false) :
    exchangesFrom tail = ([], []) := by
  induction tail with
  | nil => rfl
  | cons e es ih =>
    have he := h e (by simp)
    have hes := ih (fun x hx => h x (by simp [hx]))
    cases e <;> simp_all [exchangesFrom, Event.isConnOp]

theorem readString_line (w : World) (m rest : List Byte) (hm : IsLine m)
    (hin : w.input = m ++ rest) :
    (readString w newline).2.1 = m ∧ (readString w newline).2.2 = none ∧
    (readString w newline).1.input = rest := by
  obtain ⟨body, rfl, hb⟩ := hm
  have hs : splitAtDelim newline w.input = some (body ++ [newline], rest) := by
    rw [hin, List.append_assoc]
    exact splitAtDelim_line body rest hb
  unfold readString
  rw [hs]
  exact ⟨rfl, rfl, rfl⟩

theorem readString_fragment (w : World) (h : newline ∉ w.input) :
    (readString w newline).2.1 = w.input ∧ (readString w newline).2.2 = some w.inErr ∧
    (readString w newline).1.input = [] := by
  have hs : splitAtDelim newline w.input = none := splitAtDelim_none.mpr h
  unfold readString
  rw [hs]
  exact ⟨rfl, rfl, rfl⟩

/-- The loop on a connection without failures whose peer sends whole lines. -/
theorem lines_loop : ∀ (ms : List (List Byte)) (w : World), Quiet w →
    (∀ m ∈ ms, IsLine m) → w.input = ms.flatten → ∀ fuel, w.input.length < fuel →
    ∃ w1 evs, handleLoop fuel w = some w1 ∧ w1.trace = w.trace ++ evs ∧
      exchangesFrom evs = ([], ms.map (fun m => (m, m)) ++ [([], [])]) ∧
      w1.throttle = w.throttle ∧ w1.closeErr = w.closeErr := by
  intro ms
  induction ms with
  | nil =>
    intro w hq _ hin fuel hf
    obtain ⟨it, c1, c2, c3, c4, _, _, _, _, _, c10, _, _, _, c14, c15⟩ := handleIter_clean w hq
    have hin0 : w.input = [] := by simpa using hin
    obtain ⟨r1, r2, _⟩ := readString_fragment w (by rw [hin0]; simp)
    have hstop : (handleIter w).2 = .leave := by rw [c2, c4, r2]; rfl
    cases fuel with
    | zero => omega
    | succ fuel =>
      refine ⟨(handleIter w).1, it.events, handleLoop_stop w fuel hstop, c1, ?_, c14, c15⟩
      have := exchangesFrom_iter it []
      rw [List.append_nil] at this
      rw [this, c10, c3, r1, hin0]
      rfl
  | cons m ms ih =>
    intro w hq hms hin fuel hf
    obtain ⟨it, c1, c2, c3, c4, _, _, _, _, _, c10, c11, c12, _, c14, c15⟩ :=
      handleIter_clean w hq
    have hin1 : w.input = m ++ ms.flatten := by simpa using hin
    obtain ⟨r1, r2, r3⟩ := readString_line w m ms.flatten (hms m (by simp)) hin1
    have hgo : (handleIter w).2 = .again := by rw [c2, c4, r2]; rfl
    have hlen : (handleIter w).1.input.length < w.input.length := by
      rw [c12]
      exact readString_shrinks w newline r2
    cases fuel with
    | zero => omega
    | succ fuel =>
      obtain ⟨w1, evs, l1, l2, l3, l4, l5⟩ :=
        ih (handleIter w).1 c11 (fun x hx => hms x (by simp [hx])) (by rw [c12, r3])
          fuel (by omega)
      have hloop : handleLoop (fuel + 1) w = handleLoop fuel (handleIter w).1 := by
        simp only [handleLoop]
        rcases hres : handleIter w with ⟨w2, r⟩
        rw [hres] at hgo
        simp only at hgo
        subst hgo
        rfl
      refine ⟨w1, it.events ++ evs, by rw [hloop, l1], ?_, ?_, by rw [l4, c14],
        by rw [l5, c15]⟩
      · rw [l2, c1, List.append_assoc]
      · rw [exchangesFrom_iter, l3, c10, c3, r1]
        simp

theorem handle_of_loop_some (w w2 : World) (fuel : Nat) (h : handleLoop fuel w = some w2)
    (hth : 0 < w2.throttle) :
    ∃ w1, handle w = some w1 ∧
      w1.trace = w2.trace ++ (.release :: .close w2.closeErr :: errLog .closeFailed w2.closeErr) := by
  rw [handle_of_loop w w2 fuel h]
  have hne : ¬ w2.throttle = 0 := by omega
  refine ⟨deferredClose (emit { w2 with throttle := w2.throttle - 1 } .release), by
    simp [releaseToken, hne], ?_⟩
  rw [(deferredClose_spec _).1]
  simp [emit]

/-- C1. On a connection without write or flush failure and without shutdown
signal, whose peer sends the messages `ms`, each a newline-free string
followed by one newline, and then ends the stream, `handle` returns, and its
exchanges are exactly: for each message in the order sent, that message read
and the same bytes sent back before the next read; then the read that meets
the end of the stream, with nothing sent. -/
theorem echo_lines (ms : List (List Byte)) (w : World) (hq : Quiet w)
    (hms : ∀ m ∈ ms, IsLine m) (hin : w.input = ms.flatten) (hth : 0 < w.throttle) :
    ∃ w1 evs, handle w = some w1 ∧ w1.trace = w.trace ++ evs ∧
      exchanges evs = ms.map (fun m => (m, m)) ++ [([], [])] := by
  obtain ⟨w2, evs, l1, l2, l3, l4, l5⟩ :=
    lines_loop ms w hq hms hin (w.input.length + 1) (by omega)
  obtain ⟨w1, h1, h2⟩ := handle_of_loop_some w w2 _ l1 (by omega)
  refine ⟨w1, evs ++ (.release :: .close w2.closeErr :: errLog .closeFailed w2.closeErr),
    h1, by rw [h2, l2, List.append_assoc], ?_⟩
  have hq := exchangesFrom_quiet _ (closing_inert w2.closeErr)
  have key : ∀ (a b : List Event), exchangesFrom b = ([], []) →
      (exchangesFrom (a ++ b)).2 = (exchangesFrom a).2 ∧
      (exchangesFrom (a ++ b)).1 = (exchangesFrom a).1 := by
    intro a b hb
    induction a with
    | nil => simp [hb, exchangesFrom]
    | cons e es ih => cases e <;> simp_all [exchangesFrom]
  unfold exchanges
  rw [(key evs _ hq).1, l3]

theorem echo_lines_witness :
    ∃ w1 evs, handle (freshWorld [104, 101, 108, 108, 111, 10, 119, 111, 114, 108, 100, 10]
        .eof) = some w1 ∧
      w1.trace = (freshWorld [104, 101, 108, 108, 111, 10, 119, 111, 114, 108, 100, 10]
        .eof).trace ++ evs ∧
      exchanges evs =
        [[104, 101, 108, 108, 111, 10], [119, 111, 114, 108, 100, 10]].map
          (fun m => (m, m)) ++ [([], [])] :=
  echo_lines [[104, 101, 108, 108, 111, 10], [119, 111, 114, 108, 100, 10]]
    (freshWorld [104, 101, 108, 108, 111, 10, 119, 111, 114, 108, 100, 10] .eof)
    ⟨rfl, rfl, rfl, rfl, by simp [freshWorld]⟩
    (by
      intro m hm
      simp only [List.mem_cons, List.mem_singleton, List.mem_nil_iff, or_false] at hm
      rcases hm with rfl | rfl
      · exact ⟨[104, 101, 108, 108, 111], rfl, by decide⟩
      · exact ⟨[119, 111, 114, 108, 100], rfl, by decide⟩)
    rfl (by decide)

/-! ## Echo of an arbitrary input -/

/-- The loop on a connection without failures: every iteration but the last
reads a whole line and sends it back, the last one reads what is left, without
a newline, together with the error that ends the stream, and sends that back
too. -/
theorem clean_loop (fuel : Nat) : ∀ w : World, Quiet w → w.input.length < fuel →
    ∃ (w1 : World) (its : List Iter) (last : Iter), handleLoop fuel w = some w1 ∧
      w1.trace = w.trace ++ ((its.map Iter.events).flatten ++ last.events) ∧
      (∀ it ∈ its, IsLine it.s ∧ sentBytes it.events = it.s ∧ it.rerr = none) ∧
      (newline ∉ last.s ∧ last.rerr = some w.inErr ∧ sentBytes last.events = last.s ∧
        last.werr = none ∧ last.ferr = none ∧ last.n = last.s.length) ∧
      (its.map (fun it => it.s)).flatten ++ last.s = w.input ∧
      w1.throttle = w.throttle ∧ w1.closeErr = w.closeErr := by
  induction fuel with
  | zero => intro w _ h; omega
  | succ fuel ih =>
    intro w hq hf
    obtain ⟨it, c1, c2, c3, c4, c5, c6, c7, _, c9, _, c11, c12, c13, c14, c15⟩ :=
      handleIter_clean w hq
    cases hs : splitAtDelim newline w.input with
    | none =>
      have hno : newline ∉ w.input := splitAtDelim_none.mp hs
      obtain ⟨r1, r2, _⟩ := readString_fragment w hno
      have hstop : (handleIter w).2 = .leave := by rw [c2, c4, r2]; rfl
      refine ⟨(handleIter w).1, [], it, handleLoop_stop w fuel hstop, by simpa using c1,
        by simp, ⟨by rw [c3, r1]; exact hno, by rw [c4, r2], c9, c5, c6, c7⟩,
        by simp [c3, r1], c14, c15⟩
    | some pr =>
      obtain ⟨line, rest⟩ := pr
      obtain ⟨hx, body, hl, hb⟩ := splitAtDelim_some hs
      have hline : IsLine line := ⟨body, hl, hb⟩
      obtain ⟨r1, r2, r3⟩ := readString_line w line rest hline hx
      have hgo : (handleIter w).2 = .again := by rw [c2, c4, r2]; rfl
      have hlen : (handleIter w).1.input.length < w.input.length := by
        rw [c12]
        exact readString_shrinks w newline r2
      obtain ⟨w1, its, last, l1, l2, l3, l4, l5, l6, l7⟩ :=
        ih (handleIter w).1 c11 (by omega)
      have hloop : handleLoop (fuel + 1) w = handleLoop fuel (handleIter w).1 := by
        simp only [handleLoop]
        rcases hres : handleIter w with ⟨w2, r⟩
        rw [hres] at hgo
        simp only at hgo
        subst hgo
        rfl
      refine ⟨w1, it :: its, last, by rw [hloop, l1], ?_, ?_, ?_, ?_, by rw [l6, c14],
        by rw [l7, c15]⟩
      · rw [l2, c1]; simp
      · intro x hx1
        rcases List.mem_cons.mp hx1 with rfl | hx1
        · exact ⟨by rw [c3, r1]; exact hline, c9, by rw [c4, r2]⟩
        · exact l3 x hx1
      · rw [← c13]; exact l4
      · simp only [List.map_cons, List.flatten_cons, List.append_assoc]
        rw [l5, c12, r3, c3, r1, hx]

theorem sentBytes_flatten (its : List Iter)
    (h : ∀ it ∈ its, sentBytes it.events = it.s) :
    sentBytes (its.map Iter.events).flatten = (its.map (fun it => it.s)).flatten := by
  induction its with
  | nil => rfl
  | cons it its ih =>
    simp only [List.map_cons, List.flatten_cons, sentBytes_append]
    rw [h it (by simp), ih (fun x hx => h x (by simp [hx]))]

/-- The part of a byte string after its last newline is determined. -/
theorem fragment_unique : ∀ (ls : List (List Byte)) (x pre frag : List Byte),
    (∀ l ∈ ls, IsLine l) → newline ∉ x → newline ∉ frag →
    (pre = [] ∨ ∃ p, pre = p ++ [newline]) →
    ls.flatten ++ x = pre ++ frag → x = frag := by
  intro ls
  induction ls with
  | nil =>
    intro x pre frag _ hx _ hpre heq
    rcases hpre with rfl | ⟨p, rfl⟩
    · simpa using heq
    · exfalso
      apply hx
      simp only [List.flatten_nil, List.nil_append] at heq
      rw [heq]
      simp
  | cons l ls ih =>
    intro x pre frag hls hx hfrag hpre heq
    obtain ⟨body, rfl, hb⟩ := hls l (by simp)
    simp only [List.flatten_cons, List.append_assoc] at heq
    have heq2 : (body ++ [newline]) ++ (ls.flatten ++ x) = pre ++ frag := by
      simpa using heq
    rcases List.append_eq_append_iff.mp heq2 with ⟨a, ha1, ha2⟩ | ⟨c, hc1, hc2⟩
    · -- pre = body ++ [newline] ++ a
      refine ih x a frag (fun y hy => hls y (by simp [hy])) hx hfrag ?_ ha2
      rcases hpre with rfl | ⟨p, hp⟩
      · simp at ha1
      · by_cases hane : a = []
        · exact Or.inl hane
        · right
          refine ⟨a.dropLast, ?_⟩
          have hlast : a.getLast hane = newline := by
            have h1 : (body ++ [newline] ++ a).getLast (by simp [hane]) = a.getLast hane :=
              List.getLast_append_of_ne_nil hane
            have h2 : (p ++ [newline]).getLast (by simp) = newline := by simp
            have h3 : body ++ [newline] ++ a = p ++ [newline] := by rw [← ha1, hp]
            simp only [h3] at h1
            rw [← h1, h2]
          rw [← hlast, List.dropLast_append_getLast]
    · -- body ++ [newline] = pre ++ c, and frag = c ++ ...
      have hcnil : c = [] := by
        by_contra hcne
        have h1 : (pre ++ c).getLast (by simp [hcne]) = c.getLast hcne :=
          List.getLast_append_of_ne_nil hcne
        have h2 : (body ++ [newline]).getLast (by simp) = newline := by simp
        simp only [← hc1] at h1
        apply hfrag
        rw [hc2]
        have : newline ∈ c := by
          rw [← h2, h1]
          exact List.getLast_mem hcne
        simp [this]
      subst hcnil
      simp only [List.append_nil, List.nil_append] at hc1 hc2
      exact ih x [] frag (fun y hy => hls y (by simp [hy])) hx hfrag (Or.inl rfl)
        (by simpa using hc2.symm)

/-- C10. On a connection without write or flush failure and without shutdown
signal, whose peer sends any finite byte string and then ends the stream,
`handle` returns and the bytes it has sent to the peer, taken together, are
the whole input.  When the input ends with a fragment `frag` that has no
newline (after nothing, or after a newline), the last iteration is the one
whose read returned `frag` with end-of-stream, and in that iteration
`WriteString` took all of `frag`, nothing failed, and `frag` was sent. -/
theorem echo_whole_input (w : World) (hq : Quiet w) (heof : w.inErr = .eof)
    (hth : 0 < w.throttle) :
    ∃ w1 evs, handle w = some w1 ∧ w1.trace = w.trace ++ evs ∧ sentBytes evs = w.input ∧
      ∀ pre frag, w.input = pre ++ frag → newline ∉ frag →
        (pre = [] ∨ ∃ p, pre = p ++ [newline]) →
        ∃ (before : List Event) (last : Iter),
          evs = before ++ last.events ++
            (.release :: .close w.closeErr :: errLog .closeFailed w.closeErr) ∧
          last.s = frag ∧ last.rerr = some .eof ∧ last.n = frag.length ∧
          last.werr = none ∧ last.ferr = none ∧ sentBytes last.events = frag := by
  obtain ⟨w2, its, last, l1, l2, l3, ⟨m1, m2, m3, m4, m5, m6⟩, l5, l6, l7⟩ :=
    clean_loop (w.input.length + 1) w hq (by omega)
  obtain ⟨w1, h1, h2⟩ := handle_of_loop_some w w2 _ l1 (by omega)
  refine ⟨w1, ((its.map Iter.events).flatten ++ last.events) ++
      (.release :: .close w.closeErr :: errLog .closeFailed w.closeErr), h1, ?_, ?_, ?_⟩
  · rw [h2, l2, l7, List.append_assoc]
  · rw [sentBytes_append, sentBytes_append, sentBytes_flatten its (fun it hit => (l3 it hit).2.1),
      m3, sentBytes_inert _ (closing_inert w.closeErr), List.append_nil, l5]
  · intro pre frag hin hfrag hpre
    have hu : last.s = frag :=
      fragment_unique (its.map (fun it => it.s)) last.s pre frag
        (by
          intro l hl
          obtain ⟨it, hit, rfl⟩ := List.mem_map.mp hl
          exact (l3 it hit).1)
        m1 hfrag hpre (by rw [l5, hin])
    exact ⟨(its.map Iter.events).flatten, last, rfl, hu, by rw [m2, heof], by rw [m6, hu],
      m4, m5, by rw [m3, hu]⟩

theorem echo_whole_input_witness :
    ∃ w1 evs, handle (freshWorld [104, 105, 10, 97, 98] .eof) = some w1 ∧
      w1.trace = (freshWorld [104, 105, 10, 97, 98] .eof).trace ++ evs ∧
      sentBytes evs = (freshWorld [104, 105, 10, 97, 98] .eof).input ∧
      ∀ pre frag, (freshWorld [104, 105, 10, 97, 98] .eof).input = pre ++ frag →
        newline ∉ frag → (pre = [] ∨ ∃ p, pre = p ++ [newline]) →
        ∃ (before : List Event) (last : Iter),
          evs = before ++ last.events ++
            (.release :: .close (freshWorld [104, 105, 10, 97, 98] .eof).closeErr ::
              errLog .closeFailed (freshWorld [104, 105, 10, 97, 98] .eof).closeErr) ∧
          last.s = frag ∧ last.rerr = some .eof ∧ last.n = frag.length ∧
          last.werr = none ∧ last.ferr = none ∧ sentBytes last.events = frag :=
  echo_whole_input (freshWorld [104, 105, 10, 97, 98] .eof)
    ⟨rfl, rfl, rfl, rfl, by simp [freshWorld]⟩ rfl (by decide)

/-- The run of `handle` on the input `hi`, newline, `ab`, end of stream. -/
theorem echo_fragment_run :
    (handle (freshWorld [104, 105, 10, 97, 98] .eof)).map (fun w => w.trace) =
      some [.read [104, 105, 10] none, .log (.readMessage [104, 105, 10]),
        .writeString [104, 105, 10] 3 none, .connWrite [104, 105, 10] 3 none, .flush none,
        .log (.writeResponse [104, 105, 10] 3), .log .readyForMessage,
        .read [97, 98] (some .eof), .log (.readFailed .eof), .log (.readMessage [97, 98]),
        .writeString [97, 98] 2 none, .connWrite [97, 98] 2 none, .flush none,
        .log (.writeResponse [97, 98] 2), .log .readyForMessage, .release, .close none] := by
  decide

/-! ## The fuel of `WriteString` -/

theorem flush_outcome (w : World) (hw : w.werr = none) :
    ((flush w).1.werr = none ∧ (flush w).1.wbuf = []) ∨ (flush w).1.werr ≠ none := by
  unfold flush
  rw [hw]
  by_cases hb : w.wbuf.length = 0
  · simp only [hb, if_true]
    exact Or.inl ⟨hw, List.length_eq_zero.mp hb⟩
  · simp only [hb, if_false]
    have hfr : (connWrite w w.wbuf).1.werr = w.werr := by
      unfold connWrite
      cases hc : w.credit with
      | none => rfl
      | some k => by_cases hk : w.wbuf.length ≤ k <;> simp [hk, emit]
    rcases hres : connWrite w w.wbuf with ⟨w1, n, err⟩
    rw [hres] at hfr
    cases err with
    | none => exact Or.inl ⟨by simpa [hw] using hfr, rfl⟩
    | some e => exact Or.inr (by simp)

theorem writeStringLoop_failed (fuel : Nat) (w : World) (s : List Byte) (nn : Nat)
    (hw : w.werr ≠ none) : writeStringLoop fuel w s nn = (w, s, nn) := by
  cases fuel with
  | zero => rfl
  | succ fuel =>
    simp only [writeStringLoop]
    rw [if_neg (fun hc => hw hc.2)]

/-- The loop of `WriteString` ends by its own condition, not for lack of fuel:
when it returns, the rest of the string fits in the buffer or an error is
pending. -/
theorem writeStringLoop_exits (fuel : Nat) : ∀ (w : World) (s : List Byte) (nn : Nat),
    s.length + (if w.wbuf.length < bufSize then 0 else 1) < fuel →
    ¬ ((writeStringLoop fuel w s nn).2.1.length >
          bufSize - (writeStringLoop fuel w s nn).1.wbuf.length ∧
        (writeStringLoop fuel w s nn).1.werr = none) := by
  induction fuel with
  | zero => intro w s nn h; omega
  | succ fuel ih =>
    intro w s nn hf
    by_cases hcond : s.length > bufSize - w.wbuf.length ∧ w.werr = none
    · have hstep : writeStringLoop (fuel + 1) w s nn =
          writeStringLoop fuel
            (flush { w with
              wbuf := (w.wbuf ++ s.take (min s.length (bufSize - w.wbuf.length))) }).1
            (s.drop (min s.length (bufSize - w.wbuf.length)))
            (nn + min s.length (bufSize - w.wbuf.length)) := by
        simp only [writeStringLoop]
        rw [if_pos hcond]
      rw [hstep]
      rcases flush_outcome { w with
          wbuf := (w.wbuf ++ s.take (min s.length (bufSize - w.wbuf.length))) } hcond.2
        with ⟨h1, h2⟩ | h3
      · apply ih
        rw [h2]
        have hpos : 0 < bufSize := by decide
        simp only [List.length_drop, List.length_nil, hpos, if_true]
        split at hf <;> omega
      · rw [writeStringLoop_failed fuel _ _ _ h3]
        exact fun hc => h3 hc.2
    · have hstep : writeStringLoop (fuel + 1) w s nn = (w, s, nn) := by
        simp only [writeStringLoop]
        rw [if_neg hcond]
      rw [hstep]
      exact hcond

theorem writeString_fuel (w : World) (s : List Byte) :
    ¬ ((writeStringLoop (s.length + 2) w s 0).2.1.length >
          bufSize - (writeStringLoop (s.length + 2) w s 0).1.wbuf.length ∧
        (writeStringLoop (s.length + 2) w s 0).1.werr = none) := by
  apply writeStringLoop_exits
  split <;> omega

end EchoService

